import Mathlib

/-!
# Verification of the vitrum BVH / ray-intersection core

Shallow embedding of the spatial-acceleration core of the vitrum ray
tracer: the vector and triangle primitives (geometry crate), the flat
linear-scan intersector, and the bounding-volume hierarchy (bvh crate)
with its slab test, best-first traversal, and median build.

Scalars are modelled by the type `FP`: exact rationals extended with
positive and negative infinity and a NaN element, with IEEE-style
arithmetic (division by zero produces infinities or NaN, comparisons
with NaN are false, `max`/`min` ignore NaN as Rust float `max`/`min`
do).  The model has no signed zero and no rounding; source code zeros
are positive zeros, and the source is generic over `num::Float`
instantiated at `f32`/`f64`.
-/

namespace Vitrum

/-- Extended scalar: rationals plus infinities and NaN, modelling the
`V: Float` scalar type of the source. -/
inductive FP where
  | nan : FP
  | inf : FP
  | ninf : FP
  | fin (q : ℚ) : FP
deriving DecidableEq, Repr

namespace FP

/-- IEEE negation. -/
def neg : FP → FP
  | nan => nan
  | inf => ninf
  | ninf => inf
  | fin q => fin (-q)

/-- IEEE addition (no rounding; `inf + ninf = nan`). -/
def add : FP → FP → FP
  | nan, _ => nan
  | _, nan => nan
  | inf, ninf => nan
  | inf, _ => inf
  | ninf, inf => nan
  | ninf, _ => ninf
  | fin _, inf => inf
  | fin _, ninf => ninf
  | fin p, fin q => fin (p + q)

/-- IEEE subtraction, `a - b = a + (-b)`. -/
def sub (a b : FP) : FP := add a (neg b)

/-- IEEE multiplication (`0 * inf = nan`; no signed zero). -/
def mul : FP → FP → FP
  | nan, _ => nan
  | _, nan => nan
  | inf, inf => inf
  | inf, ninf => ninf
  | ninf, inf => ninf
  | ninf, ninf => inf
  | inf, fin q => if q > 0 then inf else if q < 0 then ninf else nan
  | fin q, inf => if q > 0 then inf else if q < 0 then ninf else nan
  | ninf, fin q => if q > 0 then ninf else if q < 0 then inf else nan
  | fin q, ninf => if q > 0 then ninf else if q < 0 then inf else nan
  | fin p, fin q => fin (p * q)

/-- IEEE division.  Division by (positive) zero yields infinities,
`0/0` and `inf/inf` yield NaN, finite over infinite yields zero. -/
def div : FP → FP → FP
  | nan, _ => nan
  | _, nan => nan
  | inf, inf => nan
  | inf, ninf => nan
  | ninf, inf => nan
  | ninf, ninf => nan
  | inf, fin q => if q < 0 then ninf else inf
  | ninf, fin q => if q < 0 then inf else ninf
  | fin _, inf => fin 0
  | fin _, ninf => fin 0
  | fin p, fin q =>
      if q = 0 then (if p > 0 then inf else if p < 0 then ninf else nan)
      else fin (p / q)

/-- IEEE strict order: any comparison with NaN is false. -/
def lt : FP → FP → Bool
  | nan, _ => false
  | _, nan => false
  | inf, _ => false
  | ninf, ninf => false
  | ninf, _ => true
  | fin _, inf => true
  | fin _, ninf => false
  | fin p, fin q => decide (p < q)

/-- IEEE non-strict order: any comparison with NaN is false. -/
def le : FP → FP → Bool
  | nan, _ => false
  | _, nan => false
  | _, inf => true
  | inf, _ => false
  | ninf, _ => true
  | fin _, ninf => false
  | fin p, fin q => decide (p ≤ q)

/-- IEEE equality test (`==`): NaN is not equal to anything. -/
def beq : FP → FP → Bool
  | nan, _ => false
  | _, nan => false
  | inf, inf => true
  | ninf, ninf => true
  | fin p, fin q => decide (p = q)
  | _, _ => false

/-- Rust `Float::max`: if either argument is NaN the other is
returned, otherwise the larger. -/
def max (a b : FP) : FP :=
  if a = nan then b else if b = nan then a else if lt a b then b else a

/-- Rust `Float::min`: if either argument is NaN the other is
returned, otherwise the smaller. -/
def min (a b : FP) : FP :=
  if a = nan then b else if b = nan then a else if lt b a then b else a

/-- The scalar zero, `V::zero()`. -/
def zero : FP := fin 0

/-- The scalar one, `V::one()`. -/
def one : FP := fin 1

def isFin : FP → Bool
  | fin _ => true
  | _ => false

def isNan : FP → Bool
  | nan => true
  | _ => false

end FP

/-- 3-component vector over the extended scalars (`Vector3D<V>`). -/
structure V3 where
  x : FP
  y : FP
  z : FP
deriving DecidableEq, Repr

namespace V3

/-- Component-wise addition (`ops::Add`). -/
def vadd (a b : V3) : V3 := ⟨FP.add a.x b.x, FP.add a.y b.y, FP.add a.z b.z⟩

/-- Component-wise subtraction (`ops::Sub`). -/
def vsub (a b : V3) : V3 := ⟨FP.sub a.x b.x, FP.sub a.y b.y, FP.sub a.z b.z⟩

/-- Dot product (`ops::Mul<Vector3D>`), summed left to right. -/
def dot (a b : V3) : FP :=
  FP.add (FP.add (FP.mul a.x b.x) (FP.mul a.y b.y)) (FP.mul a.z b.z)

/-- Cross product (`ops::BitXor`). -/
def cross (a b : V3) : V3 :=
  ⟨FP.sub (FP.mul a.y b.z) (FP.mul a.z b.y),
   FP.sub (FP.mul a.z b.x) (FP.mul a.x b.z),
   FP.sub (FP.mul a.x b.y) (FP.mul a.y b.x)⟩

/-- Vector-scalar product (`ops::Mul<T>`); the source computes
`rhs * self.component`. -/
def smul (a : V3) (t : FP) : V3 :=
  ⟨FP.mul t a.x, FP.mul t a.y, FP.mul t a.z⟩

/-- Vector-scalar division (`ops::Div<T>`). -/
def sdiv (a : V3) (t : FP) : V3 :=
  ⟨FP.div a.x t, FP.div a.y t, FP.div a.z t⟩

/-- Component-wise minimum (`Vector3D::min`). -/
def vmin (a b : V3) : V3 := ⟨FP.min a.x b.x, FP.min a.y b.y, FP.min a.z b.z⟩

/-- Component-wise maximum (`Vector3D::max`). -/
def vmax (a b : V3) : V3 := ⟨FP.max a.x b.x, FP.max a.y b.y, FP.max a.z b.z⟩

/-- The X axis unit vector (`Vector3D::x()`). -/
def axisX : V3 := ⟨FP.one, FP.zero, FP.zero⟩

/-- The Y axis unit vector (`Vector3D::y()`). -/
def axisY : V3 := ⟨FP.zero, FP.one, FP.zero⟩

/-- The Z axis unit vector (`Vector3D::z()`). -/
def axisZ : V3 := ⟨FP.zero, FP.zero, FP.one⟩

/-- All three components are finite. -/
def finB (a : V3) : Bool := a.x.isFin && a.y.isFin && a.z.isFin

end V3

/-- A ray: origin plus direction (`Ray<V>`). -/
structure Ray where
  origin : V3
  direction : V3
deriving DecidableEq, Repr

/-- `Ray::at`. -/
def Ray.at (r : Ray) (t : FP) : V3 := V3.vadd r.origin (V3.smul r.direction t)

/-- Front/back facing tag of a collision (`CollisionDirection`). -/
inductive CollisionDirection where
  | FrontFace
  | BackFace
deriving DecidableEq, Repr

/-- Result of a successful intersection (`Collision<V>`). -/
structure Collision where
  contact_point : V3
  normal : V3
  distance : FP
  direction : CollisionDirection
deriving DecidableEq, Repr

/-- A triangle primitive (`Face<T>`). -/
structure Face where
  face_normal : V3
  a : V3
  b : V3
  c : V3
  a_normal : V3
  b_normal : V3
  c_normal : V3
  a_texture : Option V3
  b_texture : Option V3
  c_texture : Option V3
deriving DecidableEq, Repr

namespace Face

/-- `Face::normal_at`: barycentric interpolation of the vertex normals
through an explicit inverse of the vertex matrix. -/
def normal_at (f : Face) (point : V3) : V3 :=
  let det : FP :=
    FP.add
      (FP.sub (FP.mul f.a.x (FP.sub (FP.mul f.b.y f.c.z) (FP.mul f.c.y f.b.z)))
              (FP.mul f.b.x (FP.sub (FP.mul f.a.y f.c.z) (FP.mul f.c.y f.a.z))))
      (FP.mul f.c.x (FP.sub (FP.mul f.a.y f.b.z) (FP.mul f.b.y f.a.z)))
  let x_fac : V3 :=
    ⟨FP.div (FP.sub (FP.mul f.b.y f.c.z) (FP.mul f.c.y f.b.z)) det,
     FP.div (FP.neg (FP.sub (FP.mul f.b.x f.c.z) (FP.mul f.c.x f.b.z))) det,
     FP.div (FP.sub (FP.mul f.b.x f.c.y) (FP.mul f.c.x f.b.y)) det⟩
  let y_fac : V3 :=
    ⟨FP.div (FP.neg (FP.sub (FP.mul f.a.y f.c.z) (FP.mul f.c.y f.a.z))) det,
     FP.div (FP.sub (FP.mul f.a.x f.c.z) (FP.mul f.c.x f.a.z)) det,
     FP.div (FP.neg (FP.sub (FP.mul f.a.x f.c.y) (FP.mul f.c.x f.a.y))) det⟩
  let z_fac : V3 :=
    ⟨FP.div (FP.sub (FP.mul f.a.y f.b.z) (FP.mul f.b.y f.a.z)) det,
     FP.div (FP.neg (FP.sub (FP.mul f.a.x f.b.z) (FP.mul f.b.x f.a.z))) det,
     FP.div (FP.sub (FP.mul f.a.x f.b.y) (FP.mul f.b.x f.a.y)) det⟩
  let bary : V3 := ⟨V3.dot x_fac point, V3.dot y_fac point, V3.dot z_fac point⟩
  V3.vadd (V3.vadd (V3.smul f.a_normal bary.x) (V3.smul f.b_normal bary.y))
          (V3.smul f.c_normal bary.z)

/-- The facing epsilon of `Face::hits`, `T::from(1e-5)`. -/
def epsilon : FP := FP.fin (1 / 100000)

/-- `Face::hits`: ray-triangle intersection with plane solve, behind
check, and three edge-side tests. -/
def hits (f : Face) (ray : Ray) : Option Collision :=
  let ray_norm_dot : FP := V3.dot ray.direction f.face_normal
  let collision_face : CollisionDirection :=
    if FP.lt (FP.neg epsilon) ray_norm_dot then .BackFace else .FrontFace
  let d : FP := V3.dot f.face_normal f.a
  let t : FP := FP.div (FP.sub d (V3.dot f.face_normal ray.origin)) ray_norm_dot
  if FP.lt t FP.zero then none
  else
    let hitPoint : V3 := V3.vadd ray.origin (V3.smul ray.direction t)
    let c0 : V3 := V3.cross (V3.vsub f.b f.a) (V3.vsub hitPoint f.a)
    if FP.lt (V3.dot f.face_normal c0) FP.zero then none
    else
      let c1 : V3 := V3.cross (V3.vsub f.c f.b) (V3.vsub hitPoint f.b)
      if FP.lt (V3.dot f.face_normal c1) FP.zero then none
      else
        let c2 : V3 := V3.cross (V3.vsub f.a f.c) (V3.vsub hitPoint f.c)
        if FP.lt (V3.dot f.face_normal c2) FP.zero then none
        else
          some { normal := f.normal_at hitPoint
                 contact_point := hitPoint
                 distance := t
                 direction := collision_face }

/-- `Face::min_extents`. -/
def min_extents (f : Face) : V3 := V3.vmin (V3.vmin f.a f.b) f.c

/-- `Face::max_extents`. -/
def max_extents (f : Face) : V3 := V3.vmax (V3.vmax f.a f.b) f.c

/-- `Face::translate`. -/
def translate (f : Face) (t : V3) : Face :=
  { f with a := V3.vadd f.a t, b := V3.vadd f.b t, c := V3.vadd f.c t }

end Face

/-- One step of the linear scan of `impl Plane for Vec<T>::hits`:
keep the strictly closer collision. -/
def scanStep (ray : Ray) (plane : Option Collision) (p : Face) : Option Collision :=
  match p.hits ray with
  | none => plane
  | some c =>
    match plane with
    | none => some c
    | some c2 => if FP.lt c.distance c2.distance then some c else plane

/-- `impl Plane for Vec<T>::hits`: brute-force linear scan keeping the
strictly closer collision. -/
def listHits (faces : List Face) (ray : Ray) : Option Collision :=
  faces.foldl (scanStep ray) none

/-- `BoundingVolumeHierarchy::collide_slab`: one-axis slab interval,
sorted so the smaller parameter is first. -/
def collideSlab (t s mn mx : FP) : FP × FP :=
  let t_min := FP.mul (FP.sub mn s) t
  let t_max := FP.mul (FP.sub mx s) t
  if FP.lt t_min t_max then (t_min, t_max) else (t_max, t_min)

/-- `BoundingVolumeHierarchy::collide_box` (the Internal-node branch of
the source method, taking the node bounds as arguments): clips the
entry/exit interval against each axis in turn with early-miss checks
after the x and y axes. -/
def collideBox (t s bmin bmax : V3) : Bool × FP :=
  let p1 := collideSlab t.x s.x bmin.x bmax.x
  let e1 := FP.max FP.ninf p1.1
  let x1 := FP.min FP.inf p1.2
  if FP.beq e1 FP.inf || FP.lt x1 e1 then (false, FP.inf)
  else
    let p2 := collideSlab t.y s.y bmin.y bmax.y
    let e2 := FP.max e1 p2.1
    let x2 := FP.min x1 p2.2
    if FP.beq e2 FP.inf || FP.lt x2 e2 then (false, FP.inf)
    else
      let p3 := collideSlab t.z s.z bmin.z bmax.z
      let e3 := FP.max e2 p3.1
      let x3 := FP.min x2 p3.2
      if !(FP.beq e3 FP.inf) && FP.le e3 x3 then
        if FP.le x3 FP.zero then (false, FP.inf)
        else if FP.le FP.zero e3 then (true, e3)
        else (true, FP.zero)
      else (false, FP.inf)

/-- `BoundingVolumeHierarchy::compute_t_s`: per-axis reciprocal
direction components and origin projections. -/
def computeTS (ray : Ray) : V3 × V3 :=
  (⟨FP.div FP.one (V3.dot V3.axisX ray.direction),
    FP.div FP.one (V3.dot V3.axisY ray.direction),
    FP.div FP.one (V3.dot V3.axisZ ray.direction)⟩,
   ⟨V3.dot V3.axisX ray.origin, V3.dot V3.axisY ray.origin,
    V3.dot V3.axisZ ray.origin⟩)

/-- The BVH tree (`BoundingVolumeHierarchy<T, S, V>`, instantiated at
the repository's `Face` primitive). -/
inductive BVH where
  | Node (min max : V3) (left right : BVH) : BVH
  | Child (f : Face) : BVH
  | Empty : BVH
deriving DecidableEq, Repr

namespace BVH

/-- `Plane::min_extents` for the tree: Empty is the `(+inf,+inf,+inf)`
sentinel. -/
def min_extents : BVH → V3
  | .Empty => ⟨FP.inf, FP.inf, FP.inf⟩
  | .Child f => f.min_extents
  | .Node m _ _ _ => m

/-- `Plane::max_extents` for the tree: Empty is the `(-inf,-inf,-inf)`
sentinel. -/
def max_extents : BVH → V3
  | .Empty => ⟨FP.ninf, FP.ninf, FP.ninf⟩
  | .Child f => f.max_extents
  | .Node _ m _ _ => m

/-- `BoundingVolumeHierarchy::node`: Internal node whose bounds are the
component-wise min/max union of the children's extents. -/
def node (left right : BVH) : BVH :=
  .Node (V3.vmin left.min_extents right.min_extents)
        (V3.vmax left.max_extents right.max_extents)
        left right

/-- `BoundingVolumeHierarchy::leaf`. -/
def leaf (f : Face) : BVH := .Child f

/-- `BoundingVolumeHierarchy::size`: leaf count. -/
def size : BVH → Nat
  | .Empty => 0
  | .Child _ => 1
  | .Node _ _ l r => l.size + r.size

/-- `Plane::translate` for the tree. -/
def translate : BVH → V3 → BVH
  | .Empty, _ => .Empty
  | .Child f, t => .Child (f.translate t)
  | .Node mn mx l r, t =>
    .Node (V3.vadd mn t) (V3.vadd mx t) (l.translate t) (r.translate t)

/-- The flat list of leaf faces of a tree, left to right. -/
def leavesList : BVH → List Face
  | .Empty => []
  | .Child f => [f]
  | .Node _ _ l r => leavesList l ++ leavesList r

/-- Number of Internal nodes; the traversal's termination measure. -/
def nodesCount : BVH → Nat
  | .Node _ _ l r => 1 + l.nodesCount + r.nodesCount
  | _ => 0

end BVH

/-- The sort key of `new_helper`: minimum-extent coordinate along the
cycling axis (0 = x, 1 = y, 2 = z).  The source panics on any other
axis value; those calls never occur (axis is always taken mod 3). -/
def sortKey (axis : Nat) (f : Face) : FP :=
  match axis with
  | 0 => f.min_extents.x
  | 1 => f.min_extents.y
  | 2 => f.min_extents.z
  | _ => FP.nan

/-- The `sort_by(helper)` call of `new_helper`: stable ascending sort
by the per-axis key (modelled by stable insertion sort, which agrees
with any stable sort for non-NaN keys). -/
def sortFaces (axis : Nat) (faces : List Face) : List Face :=
  faces.insertionSort (fun a b => FP.le (sortKey axis a) (sortKey axis b))

/-- `BoundingVolumeHierarchy::new_helper`.  The source splits the list
at `len / 2` with `split_off` FIRST and only then sorts the two halves
by the current axis before recursing with the next axis. -/
def new_helper : List Face → Nat → BVH
  | [], _ => BVH.Empty
  | [f], _ => BVH.Child f
  | f1 :: f2 :: rest, axis =>
    let faces := f1 :: f2 :: rest
    let fs1 := sortFaces axis (faces.take (faces.length / 2))
    let fs2 := sortFaces axis (faces.drop (faces.length / 2))
    BVH.node (new_helper fs1 ((axis + 1) % 3)) (new_helper fs2 ((axis + 1) % 3))
termination_by faces _ => faces.length
decreasing_by
  all_goals simp [sortFaces, List.length_insertionSort, List.length_take,
    List.length_drop]
  all_goals omega

/-- `BoundingVolumeHierarchy::new`. -/
def BVH.new (faces : List Face) : BVH := new_helper faces 0

/-- The traversal's priority queue, modelled as a list of
(subtree, box-entry cost) pairs; `BinaryHeap` pop order is recovered
by `heapPopMin`. -/
abbrev Heap := List (BVH × FP)

/-- Total comparison used to select the pop: `a` is popped before `b`
unless `b` has strictly smaller cost.  For the non-NaN costs that
actually arise this is the reversed IEEE order used by `Cost`;
`Cost::cmp` would panic on NaN. -/
def costLe (a b : FP) : Bool := !(FP.lt b a)

/-- Pop of the `BinaryHeap`: remove a minimum-cost element (the `Cost`
order is reversed, so Rust pops the least cost; ties resolve to the
earliest element here, Rust leaves them unspecified). -/
def heapPopMin : Heap → Option ((BVH × FP) × Heap)
  | [] => none
  | e :: rest =>
    match heapPopMin rest with
    | none => some (e, [])
    | some (m, rest2) =>
      if costLe e.2 m.2 then some (e, rest) else some (m, e :: rest2)

/-- Sum of Internal-node counts over the queue; strictly decreases at
every loop iteration. -/
def heapMeasure (h : Heap) : Nat :=
  (h.map (fun e => e.1.nodesCount)).sum

/-- Mutable state of `collide`: the best distance, best collision and
priority queue. -/
structure TState where
  minT : FP
  res : Option Collision
  heap : Heap
deriving Repr

/-- `BoundingVolumeHierarchy::collide_child`: resolve one child of a
popped node — leaves are intersected directly, Internal children are
box-tested and queued when they can still beat the best hit. -/
def collideChild (v : BVH) (ray : Ray) (t s : V3) (st : TState) : TState :=
  match v with
  | .Empty => st
  | .Child f =>
    match f.hits ray with
    | some c =>
      if FP.lt c.distance st.minT then { st with minT := c.distance, res := some c }
      else st
    | none => st
  | .Node bmin bmax _ _ =>
    let hb := collideBox t s bmin bmax
    if hb.1 && FP.lt hb.2 st.minT then { st with heap := st.heap ++ [(v, hb.2)] }
    else st

/-- Outcome of the traversal loop: out of fuel (never happens for the
measure bound), the `"Non node child put into queue"` panic, or a
normal return. -/
inductive LoopRes where
  | timeout : LoopRes
  | panicked : LoopRes
  | done (res : Option Collision) : LoopRes
deriving DecidableEq, Repr

/-- The `while !heap.is_empty()` loop of `collide`, with explicit
fuel. -/
def collideLoop (ray : Ray) (t s : V3) : Nat → Heap → FP → Option Collision → LoopRes
  | 0, _, _, _ => .timeout
  | Nat.succ fuel, heap, minT, res =>
    match heapPopMin heap with
    | none => .done res
    | some ((u, c), rest) =>
      if FP.lt minT c then .done res
      else
        match u with
        | .Node _ _ l r =>
          let st1 := collideChild l ray t s ⟨minT, res, rest⟩
          let st2 := collideChild r ray t s st1
          collideLoop ray t s fuel st2.heap st2.minT st2.res
        | _ => .panicked

/-- `BoundingVolumeHierarchy::collide`: seed the queue with the root
when its box test hits, then run the loop (fuel one more than the
measure, which the termination theorem shows is enough). -/
def collideR (u : BVH) (ray : Ray) : LoopRes :=
  match u with
  | .Node bmin bmax _ _ =>
    let ts := computeTS ray
    let hb := collideBox ts.1 ts.2 bmin bmax
    let heap0 : Heap := if hb.1 then [(u, hb.2)] else []
    collideLoop ray ts.1 ts.2 (heapMeasure heap0 + 1) heap0 FP.inf none
  | _ => .done none

/-- `Plane::hits` for the tree: Empty misses, a leaf delegates to the
face, an Internal root runs the priority traversal. -/
def BVH.hits (u : BVH) (ray : Ray) : Option Collision :=
  match u with
  | .Empty => none
  | .Child f => f.hits ray
  | .Node _ _ _ _ =>
    match collideR u ray with
    | .done r => r
    | _ => none

/-! ## Specification-side definitions

These definitions restate claims of the specification in order to be
compared with the embedded source functions. -/

/-- Spec statement of the box test (claim C2): accumulate the per-axis
entry/exit over all three axes, then apply the final policy cascade:
miss if entry is `+inf` or `entry > exit`; miss if `exit ≤ 0`; hit at
`entry` if `entry ≥ 0`; else hit at `0`. -/
def collideBoxSpec (t s bmin bmax : V3) : Bool × FP :=
  let p1 := collideSlab t.x s.x bmin.x bmax.x
  let p2 := collideSlab t.y s.y bmin.y bmax.y
  let p3 := collideSlab t.z s.z bmin.z bmax.z
  let entry := FP.max (FP.max (FP.max FP.ninf p1.1) p2.1) p3.1
  let exitT := FP.min (FP.min (FP.min FP.inf p1.2) p2.2) p3.2
  if FP.beq entry FP.inf || FP.lt exitT entry then (false, FP.inf)
  else if FP.le exitT FP.zero then (false, FP.inf)
  else if FP.le FP.zero entry then (true, entry)
  else (true, FP.zero)

/-- Component-wise `≤` of vectors. -/
def vLeB (a b : V3) : Bool :=
  FP.le a.x b.x && FP.le a.y b.y && FP.le a.z b.z

/-- The scalar is a strictly positive finite value. -/
def finPos : FP → Bool
  | FP.fin q => decide (0 < q)
  | _ => false

/-- A ray with finite origin and direction components. -/
def GoodRayB (r : Ray) : Bool := r.origin.finB && r.direction.finB

/-- Non-degeneracy of one axis of a face with respect to the ray: the
direction component on the axis is nonzero, or the origin projection
differs from all three vertex coordinates on the axis (so no box
boundary coordinate on a ray-parallel axis coincides with the origin
projection). -/
def axOKB (d o va vb vc : FP) : Bool :=
  !(FP.beq d FP.zero) ||
    (!(FP.beq o va) && !(FP.beq o vb) && !(FP.beq o vc))

/-- Non-degenerate face for a given ray: finite vertices; if the face
intersects the ray, the collision distance is finite and strictly
positive and the contact point lies inside the face's own extent box;
and each ray-parallel axis avoids the origin projection. -/
def GoodFaceB (ray : Ray) (f : Face) : Bool :=
  f.a.finB && f.b.finB && f.c.finB &&
  (match f.hits ray with
   | none => true
   | some c =>
     finPos c.distance && vLeB f.min_extents c.contact_point &&
       vLeB c.contact_point f.max_extents) &&
  axOKB ray.direction.x ray.origin.x f.a.x f.b.x f.c.x &&
  axOKB ray.direction.y ray.origin.y f.a.y f.b.y f.c.y &&
  axOKB ray.direction.z ray.origin.z f.a.z f.b.z f.c.z

/-- Claim C7's invariant as an executable check: every Internal node's
bounds are exactly the min/max union of its children's extents and
bound them monotonically, recursively. -/
def boundsOkB : BVH → Bool
  | .Empty => true
  | .Child _ => true
  | .Node bmin bmax l r =>
    decide (bmin = V3.vmin l.min_extents r.min_extents) &&
    decide (bmax = V3.vmax l.max_extents r.max_extents) &&
    vLeB bmin l.min_extents && vLeB bmin r.min_extents &&
    vLeB l.max_extents bmax && vLeB r.max_extents bmax &&
    boundsOkB l && boundsOkB r

/-- All faces of a list have finite vertex coordinates. -/
def allFinB (faces : List Face) : Bool :=
  faces.all (fun f => f.a.finB && f.b.finB && f.c.finB)

/-- The subtree is an Internal node. -/
def BVH.isNodeB : BVH → Bool
  | .Node _ _ _ _ => true
  | _ => false

/-- Per-axis non-degeneracy of a box with respect to a ray: on every
axis on which the ray direction component is exactly zero, the origin
projection avoids both box boundary coordinates (otherwise the slab
test produces an unsorted NaN pair and spuriously misses). -/
def boxAxisOK (ray : Ray) (bmin bmax : V3) : Prop :=
  (ray.direction.x = FP.zero → ray.origin.x ≠ bmin.x ∧ ray.origin.x ≠ bmax.x) ∧
  (ray.direction.y = FP.zero → ray.origin.y ≠ bmin.y ∧ ray.origin.y ≠ bmax.y) ∧
  (ray.direction.z = FP.zero → ray.origin.z ≠ bmin.z ∧ ray.origin.z ≠ bmax.z)

/-- Structural well-formedness of a tree for a given ray: every
Internal node has finite bounds that enclose the extents of every leaf
face below it and avoid the ray's degenerate axes. -/
def TreeOK (ray : Ray) : BVH → Prop
  | .Node bmin bmax l r =>
      bmin.finB = true ∧ bmax.finB = true ∧
      (∀ f ∈ (BVH.Node bmin bmax l r).leavesList,
        vLeB bmin f.min_extents = true ∧ vLeB f.max_extents bmax = true) ∧
      boxAxisOK ray bmin bmax ∧ TreeOK ray l ∧ TreeOK ray r
  | _ => True

/-- The coordinates of a nonempty subtree's extents avoid the ray
origin's projection on every ray-parallel axis. -/
def axisAvoid (ray : Ray) (u : BVH) : Prop :=
  (ray.direction.x = FP.zero →
    ray.origin.x ≠ u.min_extents.x ∧ ray.origin.x ≠ u.max_extents.x) ∧
  (ray.direction.y = FP.zero →
    ray.origin.y ≠ u.min_extents.y ∧ ray.origin.y ≠ u.max_extents.y) ∧
  (ray.direction.z = FP.zero →
    ray.origin.z ≠ u.min_extents.z ∧ ray.origin.z ≠ u.max_extents.z)

/-- Invariant of the priority queue during traversal: every entry is a
well-formed Internal subtree whose leaves come from the scene list and
whose cost is a finite non-negative lower bound on the collision
distance of every leaf face beneath it. -/
def heapInv (L : List Face) (ray : Ray) (H : Heap) : Prop :=
  ∀ e ∈ H, e.1.isNodeB = true ∧ TreeOK ray e.1 ∧
    (∀ f ∈ e.1.leavesList, f ∈ L) ∧
    (∃ q, e.2 = FP.fin q ∧ 0 ≤ q) ∧
    (∀ f ∈ e.1.leavesList, ∀ c, Face.hits f ray = some c →
      FP.le e.2 c.distance = true)

/-- Invariant of the running best-hit state: the best distance is
infinite exactly until a result is recorded, and any recorded result
is a genuine collision of a scene face at distance `minT`. -/
def stateInv (L : List Face) (ray : Ray) (minT : FP) (res : Option Collision) : Prop :=
  (res = none → minT = FP.inf) ∧
  (∀ c, res = some c → c.distance = minT ∧ ∃ f ∈ L, Face.hits f ray = some c) ∧
  (minT = FP.inf ∨ ∃ q, minT = FP.fin q ∧ 0 < q)

/-- Completeness of the search frontier: every scene face whose hit
would improve on the best distance is beneath a queued subtree or a
pending child. -/
def coverInv (L : List Face) (ray : Ray) (H : Heap) (minT : FP)
    (P : List BVH) : Prop :=
  ∀ f ∈ L, ∀ c, Face.hits f ray = some c → FP.lt c.distance minT = true →
    (∃ e ∈ H, f ∈ e.1.leavesList) ∨ (∃ v ∈ P, f ∈ v.leavesList)

/-- Correctness of a traversal result: `none` means no face hits, and
a collision is a genuine hit of some scene face at a globally minimal
distance. -/
def ResultGood (L : List Face) (ray : Ray) (r : Option Collision) : Prop :=
  (r = none → ∀ f ∈ L, Face.hits f ray = none) ∧
  (∀ c, r = some c → (∃ f ∈ L, Face.hits f ray = some c) ∧
    ∀ f ∈ L, ∀ c2, Face.hits f ray = some c2 →
      FP.le c.distance c2.distance = true)

/-- Left child of an Internal node (identity elsewhere). -/
def BVH.leftChild : BVH → BVH
  | .Node _ _ l _ => l
  | u => u

/-- Right child of an Internal node (identity elsewhere). -/
def BVH.rightChild : BVH → BVH
  | .Node _ _ _ r => r
  | u => u

/-! ## Concrete instances used by counterexamples and witnesses -/

/-- The unit triangle of the spec's concrete scenario: vertices
`(-1,0,0)`, `(1,0,0)`, `(0,1,0)`, face normal `(0,0,1)`. -/
def triC4 : Face :=
  { face_normal := ⟨FP.fin 0, FP.fin 0, FP.fin 1⟩
    a := ⟨FP.fin (-1), FP.fin 0, FP.fin 0⟩
    b := ⟨FP.fin 1, FP.fin 0, FP.fin 0⟩
    c := ⟨FP.fin 0, FP.fin 1, FP.fin 0⟩
    a_normal := ⟨FP.fin 0, FP.fin 0, FP.fin 1⟩
    b_normal := ⟨FP.fin 0, FP.fin 0, FP.fin 1⟩
    c_normal := ⟨FP.fin 0, FP.fin 0, FP.fin 1⟩
    a_texture := none, b_texture := none, c_texture := none }

/-- Ray from `(0, 1/2, -10)` toward `(0,0,1)`. -/
def rayC4a : Ray :=
  ⟨⟨FP.fin 0, FP.fin (1/2), FP.fin (-10)⟩, ⟨FP.fin 0, FP.fin 0, FP.fin 1⟩⟩

/-- Ray from `(0, 1/2, 10)` toward `(0,0,-1)`. -/
def rayC4b : Ray :=
  ⟨⟨FP.fin 0, FP.fin (1/2), FP.fin 10⟩, ⟨FP.fin 0, FP.fin 0, FP.fin (-1)⟩⟩

/-- A ray exactly perpendicular to the normal of `triC4`, with origin
strictly below the triangle's plane. -/
def rayC5 : Ray :=
  ⟨⟨FP.fin 0, FP.fin 0, FP.fin (-1)⟩, ⟨FP.fin 1, FP.fin 0, FP.fin 0⟩⟩

/-- A ray exactly perpendicular to the normal of `triC4`, with origin
strictly above the triangle's plane. -/
def rayC5b : Ray :=
  ⟨⟨FP.fin 0, FP.fin 0, FP.fin 1⟩, ⟨FP.fin 1, FP.fin 0, FP.fin 0⟩⟩

/-- A ray parallel to the x slabs: direction `(0,1,0)`, origin at the
coordinate origin. -/
def rayC6 : Ray :=
  ⟨⟨FP.fin 0, FP.fin 0, FP.fin 0⟩, ⟨FP.zero, FP.one, FP.zero⟩⟩

/-- `triC4` shifted by `(6,0,0)`; its x minimum-extent is `5`. -/
def triC3big : Face := triC4.translate ⟨FP.fin 6, FP.fin 0, FP.fin 0⟩

/-- Ray from the coordinate origin along `+z`. -/
def rayW : Ray :=
  ⟨⟨FP.fin 0, FP.fin 0, FP.fin 0⟩, ⟨FP.fin 0, FP.fin 0, FP.fin 1⟩⟩

/-- Triangle in the plane `z = 1` with vertices `(-1,-1,1)`, `(1,-1,1)`,
`(1/2,1,1)` (chosen so no vertex coordinate on a ray-parallel axis
coincides with the origin projection of `rayW`). -/
def tW1 : Face :=
  { face_normal := ⟨FP.fin 0, FP.fin 0, FP.fin 1⟩
    a := ⟨FP.fin (-1), FP.fin (-1), FP.fin 1⟩
    b := ⟨FP.fin 1, FP.fin (-1), FP.fin 1⟩
    c := ⟨FP.fin (1/2), FP.fin 1, FP.fin 1⟩
    a_normal := ⟨FP.fin 0, FP.fin 0, FP.fin 1⟩
    b_normal := ⟨FP.fin 0, FP.fin 0, FP.fin 1⟩
    c_normal := ⟨FP.fin 0, FP.fin 0, FP.fin 1⟩
    a_texture := none, b_texture := none, c_texture := none }

/-- The same triangle one unit further along `z`, in the plane `z = 2`. -/
def tW2 : Face :=
  { face_normal := ⟨FP.fin 0, FP.fin 0, FP.fin 1⟩
    a := ⟨FP.fin (-1), FP.fin (-1), FP.fin 2⟩
    b := ⟨FP.fin 1, FP.fin (-1), FP.fin 2⟩
    c := ⟨FP.fin (1/2), FP.fin 1, FP.fin 2⟩
    a_normal := ⟨FP.fin 0, FP.fin 0, FP.fin 1⟩
    b_normal := ⟨FP.fin 0, FP.fin 0, FP.fin 1⟩
    c_normal := ⟨FP.fin 0, FP.fin 0, FP.fin 1⟩
    a_texture := none, b_texture := none, c_texture := none }

/-! ## Order lemmas for the extended scalars -/

namespace FP

theorem beq_inf_iff {a : FP} : beq a inf = true ↔ a = inf := by
  cases a <;> simp [beq]

@[simp] theorem fin_ne_nan (q : ℚ) : FP.fin q = FP.nan ↔ False :=
  ⟨fun h => FP.noConfusion h, False.elim⟩

@[simp] theorem inf_ne_nan : FP.inf = FP.nan ↔ False :=
  ⟨fun h => FP.noConfusion h, False.elim⟩

@[simp] theorem ninf_ne_nan : FP.ninf = FP.nan ↔ False :=
  ⟨fun h => FP.noConfusion h, False.elim⟩

theorem le_rfl {a : FP} (h : a ≠ nan) : le a a = true := by
  cases a <;> simp_all [le]

theorem le_trans {a b c : FP} (h1 : le a b = true) (h2 : le b c = true) :
    le a c = true := by
  cases a <;> cases b <;> cases c <;> simp_all [le] <;> linarith

theorem lt_trans {a b c : FP} (h1 : lt a b = true) (h2 : lt b c = true) :
    lt a c = true := by
  cases a <;> cases b <;> cases c <;> simp_all [lt] <;> linarith

theorem lt_of_le_of_lt {a b c : FP} (h1 : le a b = true) (h2 : lt b c = true) :
    lt a c = true := by
  cases a <;> cases b <;> cases c <;> simp_all [le, lt] <;> linarith

theorem lt_of_lt_of_le {a b c : FP} (h1 : lt a b = true) (h2 : le b c = true) :
    lt a c = true := by
  cases a <;> cases b <;> cases c <;> simp_all [le, lt] <;> linarith

theorem le_of_lt {a b : FP} (h : lt a b = true) : le a b = true := by
  cases a <;> cases b <;> simp_all [le, lt] <;> linarith

theorem lt_irrefl {a : FP} : lt a a = false := by
  cases a <;> simp [lt]

theorem ne_nan_of_le {a b : FP} (h : le a b = true) : a ≠ nan ∧ b ≠ nan := by
  cases a <;> cases b <;> simp_all [le]

theorem ne_nan_of_lt {a b : FP} (h : lt a b = true) : a ≠ nan ∧ b ≠ nan := by
  cases a <;> cases b <;> simp_all [lt]

theorem le_of_not_lt {a b : FP} (ha : a ≠ nan) (hb : b ≠ nan)
    (h : lt a b = false) : le b a = true := by
  cases a <;> cases b <;> simp_all [le, lt] <;> linarith

theorem not_lt_of_le {a b : FP} (h : le a b = true) : lt b a = false := by
  cases a <;> cases b <;> simp_all [le, lt] <;> linarith

theorem max_cases (a b : FP) : max a b = a ∨ max a b = b := by
  cases a <;> cases b <;> simp only [max] <;> split_ifs <;> simp

theorem min_cases (a b : FP) : min a b = a ∨ min a b = b := by
  cases a <;> cases b <;> simp only [min] <;> split_ifs <;> simp

theorem max_ne_nan {a : FP} (ha : a ≠ nan) (b : FP) : max a b ≠ nan := by
  cases a <;> cases b <;> simp only [max] <;> split_ifs <;> simp_all

theorem min_ne_nan {a : FP} (ha : a ≠ nan) (b : FP) : min a b ≠ nan := by
  cases a <;> cases b <;> simp only [min] <;> split_ifs <;> simp_all

theorem le_max_self {a : FP} (ha : a ≠ nan) (b : FP) : le a (max a b) = true := by
  cases a <;> cases b <;> simp only [max] <;> split_ifs <;>
    simp_all [le, lt] <;> linarith

theorem le_max_right {b : FP} (a : FP) (hb : b ≠ nan) : le b (max a b) = true := by
  cases a <;> cases b <;> simp only [max] <;> split_ifs <;>
    simp_all [le, lt] <;> linarith

theorem min_le_self {a : FP} (ha : a ≠ nan) (b : FP) : le (min a b) a = true := by
  cases a <;> cases b <;> simp only [min] <;> split_ifs <;>
    simp_all [le, lt] <;> linarith

theorem min_le_right {b : FP} (a : FP) (hb : b ≠ nan) : le (min a b) b = true := by
  cases a <;> cases b <;> simp only [min] <;> split_ifs <;>
    simp_all [le, lt] <;> linarith

theorem max_inf_left (b : FP) : max inf b = inf := by
  cases b <;> simp [max, lt]

theorem max_le_of {a b c : FP} (h1 : le a c = true) (h2 : le b c = true) :
    le (max a b) c = true := by
  rcases max_cases a b with h | h <;> rw [h] <;> assumption

theorem le_min_of {a b c : FP} (h1 : le c a = true) (h2 : le c b = true) :
    le c (min a b) = true := by
  rcases min_cases a b with h | h <;> rw [h] <;> assumption

end FP

/-! ## The box test equals the spec's accumulate-then-decide policy -/

/-- The entry/exit cascade of `collide_box`, with the early-miss checks
of the source, equals the cascade that first accumulates all three
axes and then applies the final policy once, for arbitrary per-axis
interval bounds. -/
theorem boxCascade_eq (l1 u1 l2 u2 l3 u3 : FP) :
    (if FP.beq (FP.max FP.ninf l1) FP.inf ||
        FP.lt (FP.min FP.inf u1) (FP.max FP.ninf l1) then (false, FP.inf)
     else if FP.beq (FP.max (FP.max FP.ninf l1) l2) FP.inf ||
        FP.lt (FP.min (FP.min FP.inf u1) u2) (FP.max (FP.max FP.ninf l1) l2) then
       (false, FP.inf)
     else if !(FP.beq (FP.max (FP.max (FP.max FP.ninf l1) l2) l3) FP.inf) &&
        FP.le (FP.max (FP.max (FP.max FP.ninf l1) l2) l3)
          (FP.min (FP.min (FP.min FP.inf u1) u2) u3) then
       if FP.le (FP.min (FP.min (FP.min FP.inf u1) u2) u3) FP.zero then
         (false, FP.inf)
       else if FP.le FP.zero (FP.max (FP.max (FP.max FP.ninf l1) l2) l3) then
         (true, FP.max (FP.max (FP.max FP.ninf l1) l2) l3)
       else (true, FP.zero)
     else (false, FP.inf)) =
    (if FP.beq (FP.max (FP.max (FP.max FP.ninf l1) l2) l3) FP.inf ||
        FP.lt (FP.min (FP.min (FP.min FP.inf u1) u2) u3)
          (FP.max (FP.max (FP.max FP.ninf l1) l2) l3) then (false, FP.inf)
     else if FP.le (FP.min (FP.min (FP.min FP.inf u1) u2) u3) FP.zero then
       (false, FP.inf)
     else if FP.le FP.zero (FP.max (FP.max (FP.max FP.ninf l1) l2) l3) then
       (true, FP.max (FP.max (FP.max FP.ninf l1) l2) l3)
     else (true, FP.zero)) := by
  have hne1 : FP.max FP.ninf l1 ≠ FP.nan := FP.max_ne_nan (by simp) l1
  have hne2 : FP.max (FP.max FP.ninf l1) l2 ≠ FP.nan := FP.max_ne_nan hne1 l2
  have hne3 : FP.max (FP.max (FP.max FP.ninf l1) l2) l3 ≠ FP.nan :=
    FP.max_ne_nan hne2 l3
  have hnx1 : FP.min FP.inf u1 ≠ FP.nan := FP.min_ne_nan (by simp) u1
  have hnx2 : FP.min (FP.min FP.inf u1) u2 ≠ FP.nan := FP.min_ne_nan hnx1 u2
  have hnx3 : FP.min (FP.min (FP.min FP.inf u1) u2) u3 ≠ FP.nan :=
    FP.min_ne_nan hnx2 u3
  have hee2 : FP.le (FP.max FP.ninf l1) (FP.max (FP.max FP.ninf l1) l2) = true :=
    FP.le_max_self hne1 l2
  have hee3 : FP.le (FP.max (FP.max FP.ninf l1) l2)
      (FP.max (FP.max (FP.max FP.ninf l1) l2) l3) = true :=
    FP.le_max_self hne2 l3
  have hxx2 : FP.le (FP.min (FP.min FP.inf u1) u2) (FP.min FP.inf u1) = true :=
    FP.min_le_self hnx1 u2
  have hxx3 : FP.le (FP.min (FP.min (FP.min FP.inf u1) u2) u3)
      (FP.min (FP.min FP.inf u1) u2) = true :=
    FP.min_le_self hnx2 u3
  set e1 := FP.max FP.ninf l1 with he1def
  set x1 := FP.min FP.inf u1 with hx1def
  set e2 := FP.max e1 l2 with he2def
  set x2 := FP.min x1 u2 with hx2def
  set e3 := FP.max e2 l3 with he3def
  set x3 := FP.min x2 u3 with hx3def
  by_cases h1 : (FP.beq e1 FP.inf || FP.lt x1 e1) = true
  · rw [if_pos h1]
    rcases Bool.or_eq_true_iff.mp h1 with h | h
    · have he : e1 = FP.inf := FP.beq_inf_iff.mp h
      have he2i : e2 = FP.inf := by rw [he2def, he, FP.max_inf_left]
      have he3i : e3 = FP.inf := by rw [he3def, he2i, FP.max_inf_left]
      rw [if_pos (by rw [he3i]; simp [FP.beq])]
    · have hlt : FP.lt x3 e3 = true := by
        refine FP.lt_of_le_of_lt (FP.le_trans hxx3 hxx2) ?_
        exact FP.lt_of_lt_of_le h (FP.le_trans hee2 hee3)
      rw [if_pos (by rw [hlt]; simp)]
  · rw [if_neg h1]
    by_cases h2 : (FP.beq e2 FP.inf || FP.lt x2 e2) = true
    · rw [if_pos h2]
      rcases Bool.or_eq_true_iff.mp h2 with h | h
      · have he2i : e2 = FP.inf := FP.beq_inf_iff.mp h
        have he3i : e3 = FP.inf := by rw [he3def, he2i, FP.max_inf_left]
        rw [if_pos (by rw [he3i]; simp [FP.beq])]
      · have hlt : FP.lt x3 e3 = true :=
          FP.lt_of_le_of_lt hxx3 (FP.lt_of_lt_of_le h hee3)
        rw [if_pos (by rw [hlt]; simp)]
    · rw [if_neg h2]
      have hCD : (!(FP.beq e3 FP.inf) && FP.le e3 x3) =
          !(FP.beq e3 FP.inf || FP.lt x3 e3) := by
        cases hb : FP.beq e3 FP.inf
        · simp only [Bool.not_false, Bool.true_and, Bool.false_or]
          cases hlt : FP.lt x3 e3
          · simp only [Bool.not_false]
            exact FP.le_of_not_lt hnx3 hne3 hlt
          · simp only [Bool.not_true]
            cases hle : FP.le e3 x3
            · rfl
            · exact absurd (FP.not_lt_of_le hle) (by simp [hlt])
        · simp
      rw [hCD]
      cases hd : (FP.beq e3 FP.inf || FP.lt x3 e3) <;> simp [hd]

/-- C2: for every Internal node box and every precomputed ray data,
`collide_box` accumulates per-axis entry/exit and returns exactly the
spec's policy: miss when entry is `+inf` or `entry > exit`, miss when
`exit ≤ 0`, hit at `entry` when `entry ≥ 0`, else hit at `0`. -/
theorem c2_collide_box_matches_policy (t s bmin bmax : V3) :
    collideBox t s bmin bmax = collideBoxSpec t s bmin bmax := by
  unfold collideBox collideBoxSpec
  exact boxCascade_eq _ _ _ _ _ _

/-! ## The concrete scenario (C4) and parallel rays (C5) -/

/-- C4 counterexample: for the spec's unit triangle, the ray from
`(0, 1/2, -10)` toward `(0,0,1)` hits with the BACK-face tag, not the
front-face tag the claim states (the code tags a hit BackFace whenever
`ray.direction * face_normal > -epsilon`, and here the dot is `1`). -/
theorem c4_counterexample :
    (triC4.hits rayC4a).map Collision.direction =
      some CollisionDirection.BackFace ∧
    CollisionDirection.BackFace ≠ CollisionDirection.FrontFace := by
  constructor
  · norm_num [Face.hits, Face.normal_at, Face.epsilon, triC4, rayC4a,
      V3.dot, V3.cross, V3.vadd, V3.vsub, V3.smul,
      FP.mul, FP.add, FP.sub, FP.neg, FP.div, FP.lt, FP.le, FP.zero, FP.one]
  · decide

/-- C4 amended: both rays hit at distance `10` at contact point
`(0, 1/2, 0)`, but the ray travelling along the face normal is tagged
back-face and the reverse ray front-face — the opposite of the claim's
tags. -/
theorem c4_amended_hits :
    (triC4.hits rayC4a).map (fun c => (c.distance, c.contact_point, c.direction)) =
      some (FP.fin 10, ⟨FP.fin 0, FP.fin (1/2), FP.fin 0⟩,
        CollisionDirection.BackFace) ∧
    (triC4.hits rayC4b).map (fun c => (c.distance, c.contact_point, c.direction)) =
      some (FP.fin 10, ⟨FP.fin 0, FP.fin (1/2), FP.fin 0⟩,
        CollisionDirection.FrontFace) := by
  constructor
  · norm_num [Face.hits, Face.normal_at, Face.epsilon, triC4, rayC4a,
      V3.dot, V3.cross, V3.vadd, V3.vsub, V3.smul,
      FP.mul, FP.add, FP.sub, FP.neg, FP.div, FP.lt, FP.le, FP.zero, FP.one]
  · norm_num [Face.hits, Face.normal_at, Face.epsilon, triC4, rayC4b,
      V3.dot, V3.cross, V3.vadd, V3.vsub, V3.smul,
      FP.mul, FP.add, FP.sub, FP.neg, FP.div, FP.lt, FP.le, FP.zero, FP.one]

/-- C5 counterexample: a ray exactly perpendicular to the triangle's
normal (direction `(1,0,0)` against normal `(0,0,1)`), with origin on
the negative side of the plane, is NOT rejected: the division yields
`t = +inf`, the behind test `t < 0` fails, all edge tests compare
against NaN (hence pass), and `Face::hits` returns a collision with
distance `+inf`. -/
theorem c5_counterexample :
    V3.dot rayC5.direction triC4.face_normal = FP.zero ∧
    (triC4.hits rayC5).map Collision.distance = some FP.inf := by
  constructor
  · norm_num [triC4, rayC5, V3.dot, FP.mul, FP.add, FP.zero]
  · norm_num [Face.hits, Face.normal_at, Face.epsilon, triC4, rayC5,
      V3.dot, V3.cross, V3.vadd, V3.vsub, V3.smul,
      FP.mul, FP.add, FP.sub, FP.neg, FP.div, FP.lt, FP.le, FP.zero, FP.one]

/-- C5 amended: an exactly perpendicular ray is rejected (hits returns
None) whenever the plane numerator `normal*a - normal*origin` is
strictly negative, because the division by zero then yields
`t = -inf < 0`; for a non-negative numerator the non-finite `t` is not
excluded by the later comparisons and a spurious collision escapes. -/
theorem c5_perpendicular_negative_numerator_misses (f : Face) (ray : Ray)
    (hperp : V3.dot ray.direction f.face_normal = FP.zero)
    (hneg : FP.lt (FP.sub (V3.dot f.face_normal f.a)
      (V3.dot f.face_normal ray.origin)) FP.zero = true) :
    f.hits ray = none := by
  have ht : FP.div (FP.sub (V3.dot f.face_normal f.a)
      (V3.dot f.face_normal ray.origin)) FP.zero = FP.ninf := by
    rcases hd : FP.sub (V3.dot f.face_normal f.a)
        (V3.dot f.face_normal ray.origin) with _ | _ | _ | q
    · rw [hd] at hneg; simp [FP.lt] at hneg
    · rw [hd] at hneg; simp [FP.lt, FP.zero] at hneg
    · simp [FP.div, FP.zero]
    · rw [hd] at hneg
      simp only [FP.lt, FP.zero, decide_eq_true_eq] at hneg
      simp only [FP.div, FP.zero, if_true]
      rw [if_neg (show ¬ q > 0 by linarith), if_pos hneg]
  simp only [Face.hits, hperp, ht]
  simp [FP.lt, FP.zero]

/-- C5 witness: the perpendicular ray with origin above the plane of
the unit triangle is rejected. -/
theorem c5_witness : triC4.hits rayC5b = none :=
  c5_perpendicular_negative_numerator_misses triC4 rayC5b
    (by norm_num [triC4, rayC5b, V3.dot, FP.mul, FP.add, FP.zero])
    (by norm_num [triC4, rayC5b, V3.dot, FP.mul, FP.add, FP.sub, FP.neg,
      FP.lt, FP.zero])

/-! ## Parallel slab policy (C6) -/

/-- C6 counterexample: a slab-parallel ray whose origin projection `2`
lies outside the interval `[0,1]` on the far (max) side yields
`(-inf, -inf)`, not the `(+inf, +inf)` sentinel the claim states for
every outside origin. -/
theorem c6_counterexample :
    collideSlab (computeTS rayC6).1.x (computeTS rayC6).2.x
      (FP.fin (-2)) (FP.fin (-1)) = (FP.ninf, FP.ninf) ∧
    (FP.ninf, FP.ninf) ≠ ((FP.inf : FP), (FP.inf : FP)) := by
  constructor
  · norm_num [collideSlab, computeTS, rayC6, V3.dot, V3.axisX, V3.axisY,
      V3.axisZ, FP.mul, FP.add, FP.sub, FP.neg, FP.div, FP.lt, FP.zero, FP.one]
  · decide

/-- C6 amended: for a ray whose direction component on an axis is
(positive) zero with finite components, the reciprocal is `+inf`, and
`collide_slab` returns exactly `(-inf, +inf)` when the origin
projection is strictly inside `(min, max)`, exactly `(+inf, +inf)`
when it is strictly below `min`, and exactly `(-inf, -inf)` when it is
strictly above `max`. -/
theorem c6_parallel_slab_policy (r : Ray) (s mn mx : ℚ)
    (hfin : GoodRayB r = true)
    (hdx : r.direction.x = FP.zero)
    (hox : r.origin.x = FP.fin s)
    (hbox : mn ≤ mx) :
    (mn < s → s < mx →
      collideSlab (computeTS r).1.x (computeTS r).2.x (FP.fin mn) (FP.fin mx) =
        (FP.ninf, FP.inf)) ∧
    (s < mn →
      collideSlab (computeTS r).1.x (computeTS r).2.x (FP.fin mn) (FP.fin mx) =
        (FP.inf, FP.inf)) ∧
    (mx < s →
      collideSlab (computeTS r).1.x (computeTS r).2.x (FP.fin mn) (FP.fin mx) =
        (FP.ninf, FP.ninf)) := by
  have hby : ∃ qy, r.direction.y = FP.fin qy := by
    rcases hv : r.direction.y with _ | _ | _ | q <;>
      simp [GoodRayB, V3.finB, hv, FP.isFin] at hfin ⊢
  have hbz : ∃ qz, r.direction.z = FP.fin qz := by
    rcases hv : r.direction.z with _ | _ | _ | q <;>
      simp [GoodRayB, V3.finB, hv, FP.isFin] at hfin ⊢
  rcases hby with ⟨qy, hqy⟩
  rcases hbz with ⟨qz, hqz⟩
  have htx : (computeTS r).1.x = FP.inf := by
    simp [computeTS, V3.dot, V3.axisX, hdx, hqy, hqz, FP.zero, FP.one,
      FP.mul, FP.add, FP.div]
  have hsx : (computeTS r).2.x = FP.fin s := by
    have hoy : ∃ py, r.origin.y = FP.fin py := by
      rcases hv : r.origin.y with _ | _ | _ | q <;>
        simp [GoodRayB, V3.finB, hv, FP.isFin] at hfin ⊢
    have hoz : ∃ pz, r.origin.z = FP.fin pz := by
      rcases hv : r.origin.z with _ | _ | _ | q <;>
        simp [GoodRayB, V3.finB, hv, FP.isFin] at hfin ⊢
    rcases hoy with ⟨py, hpy⟩
    rcases hoz with ⟨pz, hpz⟩
    simp [computeTS, V3.dot, V3.axisX, hox, hpy, hpz, FP.zero, FP.one,
      FP.mul, FP.add]
  rw [htx, hsx]
  refine ⟨fun h1 h2 => ?_, fun h1 => ?_, fun h1 => ?_⟩
  · have hmin : FP.mul (FP.sub (FP.fin mn) (FP.fin s)) FP.inf = FP.ninf := by
      simp only [FP.sub, FP.neg, FP.add, FP.mul]
      rw [if_neg (show ¬ mn + -s > 0 by linarith),
        if_pos (show mn + -s < 0 by linarith)]
    have hmax : FP.mul (FP.sub (FP.fin mx) (FP.fin s)) FP.inf = FP.inf := by
      simp only [FP.sub, FP.neg, FP.add, FP.mul]
      rw [if_pos (show mx + -s > 0 by linarith)]
    simp [collideSlab, hmin, hmax, FP.lt]
  · have hmin : FP.mul (FP.sub (FP.fin mn) (FP.fin s)) FP.inf = FP.inf := by
      simp only [FP.sub, FP.neg, FP.add, FP.mul]
      rw [if_pos (show mn + -s > 0 by linarith)]
    have hmax : FP.mul (FP.sub (FP.fin mx) (FP.fin s)) FP.inf = FP.inf := by
      simp only [FP.sub, FP.neg, FP.add, FP.mul]
      rw [if_pos (show mx + -s > 0 by linarith)]
    simp [collideSlab, hmin, hmax, FP.lt]
  · have hmin : FP.mul (FP.sub (FP.fin mn) (FP.fin s)) FP.inf = FP.ninf := by
      simp only [FP.sub, FP.neg, FP.add, FP.mul]
      rw [if_neg (show ¬ mn + -s > 0 by linarith),
        if_pos (show mn + -s < 0 by linarith)]
    have hmax : FP.mul (FP.sub (FP.fin mx) (FP.fin s)) FP.inf = FP.ninf := by
      simp only [FP.sub, FP.neg, FP.add, FP.mul]
      rw [if_neg (show ¬ mx + -s > 0 by linarith),
        if_pos (show mx + -s < 0 by linarith)]
    simp [collideSlab, hmin, hmax, FP.lt]

/-- C6 witness: for the concrete parallel ray with origin projection
`0`, the three amended cases evaluate as stated on the intervals
`[-5, 5]`, `[5, 10]` and `[-2, -1]`. -/
theorem c6_witness :
    collideSlab (computeTS rayC6).1.x (computeTS rayC6).2.x
      (FP.fin (-5)) (FP.fin 5) = (FP.ninf, FP.inf) ∧
    collideSlab (computeTS rayC6).1.x (computeTS rayC6).2.x
      (FP.fin 5) (FP.fin 10) = (FP.inf, FP.inf) ∧
    collideSlab (computeTS rayC6).1.x (computeTS rayC6).2.x
      (FP.fin (-2)) (FP.fin (-1)) = (FP.ninf, FP.ninf) := by
  have hGood : GoodRayB rayC6 = true := by
    norm_num [GoodRayB, rayC6, V3.finB, FP.isFin, FP.zero, FP.one]
  refine ⟨(c6_parallel_slab_policy rayC6 0 (-5) 5 hGood rfl rfl (by norm_num)).1
      (by norm_num) (by norm_num),
    (c6_parallel_slab_policy rayC6 0 5 10 hGood rfl rfl (by norm_num)).2.1
      (by norm_num),
    (c6_parallel_slab_policy rayC6 0 (-2) (-1) hGood rfl rfl (by norm_num)).2.2
      (by norm_num)⟩

/-! ## Build structure: leaf permutation, size, split order -/

/-- The sort performed by the build is a permutation. -/
theorem sortFaces_perm (axis : Nat) (fs : List Face) :
    (sortFaces axis fs).Perm fs :=
  List.perm_insertionSort _ fs

/-- The leaves of a built tree are a permutation of the input list. -/
theorem new_helper_leaves_perm (fs : List Face) (axis : Nat) :
    (new_helper fs axis).leavesList.Perm fs := by
  induction fs, axis using new_helper.induct with
  | case1 axis => simp [new_helper, BVH.leavesList]
  | case2 f axis => simp [new_helper, BVH.leavesList]
  | case3 f1 f2 rest axis faces fs1 fs2 ih1 ih2 =>
    rw [new_helper]
    simp only [BVH.node, BVH.leavesList]
    have h1 := ih1.trans (sortFaces_perm axis _)
    have h2 := ih2.trans (sortFaces_perm axis _)
    have := (h1.append h2).trans
      (by rw [List.take_append_drop] :
        ((f1 :: f2 :: rest).take ((f1 :: f2 :: rest).length / 2) ++
         (f1 :: f2 :: rest).drop ((f1 :: f2 :: rest).length / 2)).Perm
          (f1 :: f2 :: rest))
    exact this

/-- A tree's size is the length of its leaf list. -/
theorem size_eq_leaves_length (u : BVH) : u.size = u.leavesList.length := by
  induction u with
  | Node mn mx l r ihl ihr => simp [BVH.size, BVH.leavesList, ihl, ihr]
  | Child f => rfl
  | Empty => rfl

/-- C9: for every input list (including the empty one), the built
tree's leaf count equals the input length. -/
theorem c9_tree_size (faces : List Face) : (BVH.new faces).size = faces.length := by
  rw [size_eq_leaves_length]
  exact (new_helper_leaves_perm faces 0).length_eq

/-- Building from exactly two faces yields a node with the first face
on the left and the second on the right, regardless of their keys. -/
theorem new_pair (f g : Face) :
    BVH.new [f, g] = BVH.node (BVH.leaf f) (BVH.leaf g) := by
  rw [BVH.new, new_helper]
  simp [new_helper, sortFaces, List.insertionSort, BVH.leaf]

/-- C3 counterexample: building from the two-element list whose FIRST
face has the strictly larger x minimum-extent still puts the first
face in the left subtree: `new_helper` splits by position before
sorting, so the left half does not hold the smaller sort keys. -/
theorem c3_counterexample :
    BVH.new [triC3big, triC4] = BVH.node (BVH.leaf triC3big) (BVH.leaf triC4) ∧
    FP.lt (sortKey 0 triC4) (sortKey 0 triC3big) = true := by
  refine ⟨new_pair triC3big triC4, ?_⟩
  norm_num [sortKey, Face.min_extents, triC4, triC3big, Face.translate,
    V3.vmin, V3.vadd, FP.min, FP.add, FP.lt]

/-- C3 amended: for at least two primitives the build splits the list
at its midpoint by count FIRST, in the given order, and only then
sorts each half by the cycling-axis key before recursing: the left
subtree's leaves are exactly (a permutation of) the first half of the
unsorted input, the right subtree's exactly the second half. -/
theorem c3_split_before_sort (f1 f2 : Face) (rest : List Face) (axis : Nat) :
    ((new_helper (f1 :: f2 :: rest) axis).leftChild.leavesList).Perm
      ((f1 :: f2 :: rest).take ((f1 :: f2 :: rest).length / 2)) ∧
    ((new_helper (f1 :: f2 :: rest) axis).rightChild.leavesList).Perm
      ((f1 :: f2 :: rest).drop ((f1 :: f2 :: rest).length / 2)) := by
  rw [new_helper]
  simp only [BVH.node, BVH.leftChild, BVH.rightChild]
  exact ⟨(new_helper_leaves_perm _ _).trans (sortFaces_perm _ _),
    (new_helper_leaves_perm _ _).trans (sortFaces_perm _ _)⟩

/-! ## Finite-value arithmetic lemmas -/

namespace FP

theorem add_fin (p q : ℚ) : add (fin p) (fin q) = fin (p + q) := rfl

theorem le_fin (p q : ℚ) : le (fin p) (fin q) = decide (p ≤ q) := rfl

theorem min_fin (p q : ℚ) : min (fin p) (fin q) = fin (Min.min p q) := by
  simp only [min, lt, fin_ne_nan, if_false, decide_eq_true_eq]
  split_ifs with h
  · rw [min_eq_right h.le]
  · rw [min_eq_left (not_lt.mp h)]

theorem max_fin (p q : ℚ) : max (fin p) (fin q) = fin (Max.max p q) := by
  simp only [max, lt, fin_ne_nan, if_false, decide_eq_true_eq]
  split_ifs with h
  · rw [max_eq_right h.le]
  · rw [max_eq_left (not_lt.mp h)]

end FP

/-- Characterization of finite vectors by their rational components. -/
theorem V3.finB_iff {v : V3} :
    v.finB = true ↔ ∃ px py pz, v = ⟨FP.fin px, FP.fin py, FP.fin pz⟩ := by
  constructor
  · intro h
    rcases v with ⟨x, y, z⟩
    rcases x with _ | _ | _ | px <;> rcases y with _ | _ | _ | py <;>
      rcases z with _ | _ | _ | pz <;> simp_all [V3.finB, FP.isFin]
  · rintro ⟨px, py, pz, rfl⟩
    rfl

theorem V3.finB_vadd {a t : V3} (ha : a.finB = true) (ht : t.finB = true) :
    (V3.vadd a t).finB = true := by
  rcases V3.finB_iff.mp ha with ⟨ax, ay, az, rfl⟩
  rcases V3.finB_iff.mp ht with ⟨tx, ty, tz, rfl⟩
  rfl

theorem V3.finB_vmin {a b : V3} (ha : a.finB = true) (hb : b.finB = true) :
    (V3.vmin a b).finB = true := by
  rcases V3.finB_iff.mp ha with ⟨ax, ay, az, rfl⟩
  rcases V3.finB_iff.mp hb with ⟨bx, by1, bz, rfl⟩
  simp [V3.vmin, FP.min_fin, V3.finB, FP.isFin]

theorem V3.finB_vmax {a b : V3} (ha : a.finB = true) (hb : b.finB = true) :
    (V3.vmax a b).finB = true := by
  rcases V3.finB_iff.mp ha with ⟨ax, ay, az, rfl⟩
  rcases V3.finB_iff.mp hb with ⟨bx, by1, bz, rfl⟩
  simp [V3.vmax, FP.max_fin, V3.finB, FP.isFin]

theorem vLeB_vmin_left {a b : V3} (ha : a.finB = true) (hb : b.finB = true) :
    vLeB (V3.vmin a b) a = true := by
  rcases V3.finB_iff.mp ha with ⟨ax, ay, az, rfl⟩
  rcases V3.finB_iff.mp hb with ⟨bx, by1, bz, rfl⟩
  simp [vLeB, V3.vmin, FP.min_fin, FP.le_fin, min_le_left]

theorem vLeB_vmin_right {a b : V3} (ha : a.finB = true) (hb : b.finB = true) :
    vLeB (V3.vmin a b) b = true := by
  rcases V3.finB_iff.mp ha with ⟨ax, ay, az, rfl⟩
  rcases V3.finB_iff.mp hb with ⟨bx, by1, bz, rfl⟩
  simp [vLeB, V3.vmin, FP.min_fin, FP.le_fin, min_le_right]

theorem vLeB_vmax_left {a b : V3} (ha : a.finB = true) (hb : b.finB = true) :
    vLeB a (V3.vmax a b) = true := by
  rcases V3.finB_iff.mp ha with ⟨ax, ay, az, rfl⟩
  rcases V3.finB_iff.mp hb with ⟨bx, by1, bz, rfl⟩
  simp [vLeB, V3.vmax, FP.max_fin, FP.le_fin, le_max_left]

theorem vLeB_vmax_right {a b : V3} (ha : a.finB = true) (hb : b.finB = true) :
    vLeB b (V3.vmax a b) = true := by
  rcases V3.finB_iff.mp ha with ⟨ax, ay, az, rfl⟩
  rcases V3.finB_iff.mp hb with ⟨bx, by1, bz, rfl⟩
  simp [vLeB, V3.vmax, FP.max_fin, FP.le_fin, le_max_right]

theorem vmin_vadd {a b t : V3} (ha : a.finB = true) (hb : b.finB = true)
    (ht : t.finB = true) :
    V3.vadd (V3.vmin a b) t = V3.vmin (V3.vadd a t) (V3.vadd b t) := by
  rcases V3.finB_iff.mp ha with ⟨ax, ay, az, rfl⟩
  rcases V3.finB_iff.mp hb with ⟨bx, by1, bz, rfl⟩
  rcases V3.finB_iff.mp ht with ⟨tx, ty, tz, rfl⟩
  simp [V3.vmin, V3.vadd, FP.min_fin, FP.add_fin, min_add_add_right]

theorem vmax_vadd {a b t : V3} (ha : a.finB = true) (hb : b.finB = true)
    (ht : t.finB = true) :
    V3.vadd (V3.vmax a b) t = V3.vmax (V3.vadd a t) (V3.vadd b t) := by
  rcases V3.finB_iff.mp ha with ⟨ax, ay, az, rfl⟩
  rcases V3.finB_iff.mp hb with ⟨bx, by1, bz, rfl⟩
  rcases V3.finB_iff.mp ht with ⟨tx, ty, tz, rfl⟩
  simp [V3.vmax, V3.vadd, FP.max_fin, FP.add_fin, max_add_add_right]

/-- A face with finite vertices has finite extents. -/
theorem face_extents_fin {f : Face}
    (hf : (f.a.finB && f.b.finB && f.c.finB) = true) :
    f.min_extents.finB = true ∧ f.max_extents.finB = true := by
  rcases Bool.and_eq_true_iff.mp hf with ⟨hab, hc⟩
  rcases Bool.and_eq_true_iff.mp hab with ⟨ha, hb⟩
  exact ⟨V3.finB_vmin (V3.finB_vmin ha hb) hc,
    V3.finB_vmax (V3.finB_vmax ha hb) hc⟩

/-- Translating a face with finite vertices shifts its extents. -/
theorem face_translate_extents {f : Face} {t : V3}
    (hf : (f.a.finB && f.b.finB && f.c.finB) = true) (ht : t.finB = true) :
    (f.translate t).min_extents = V3.vadd f.min_extents t ∧
    (f.translate t).max_extents = V3.vadd f.max_extents t := by
  rcases Bool.and_eq_true_iff.mp hf with ⟨hab, hc⟩
  rcases Bool.and_eq_true_iff.mp hab with ⟨ha, hb⟩
  constructor
  · show V3.vmin (V3.vmin (V3.vadd f.a t) (V3.vadd f.b t)) (V3.vadd f.c t) =
      V3.vadd (V3.vmin (V3.vmin f.a f.b) f.c) t
    rw [vmin_vadd (V3.finB_vmin ha hb) hc ht, vmin_vadd ha hb ht]
  · show V3.vmax (V3.vmax (V3.vadd f.a t) (V3.vadd f.b t)) (V3.vadd f.c t) =
      V3.vadd (V3.vmax (V3.vmax f.a f.b) f.c) t
    rw [vmax_vadd (V3.finB_vmax ha hb) hc ht, vmax_vadd ha hb ht]

/-! ## The bounds invariant (C7) -/

/-- A `node` of two trees with finite extents satisfies the local
bounds checks. -/
theorem boundsOkB_node {L R : BVH}
    (hLmin : L.min_extents.finB = true) (hLmax : L.max_extents.finB = true)
    (hRmin : R.min_extents.finB = true) (hRmax : R.max_extents.finB = true)
    (hL : boundsOkB L = true) (hR : boundsOkB R = true) :
    boundsOkB (BVH.node L R) = true := by
  simp only [BVH.node, boundsOkB, Bool.and_eq_true, decide_eq_true_eq]
  refine ⟨⟨⟨⟨⟨⟨⟨trivial, trivial⟩, ?_⟩, ?_⟩, ?_⟩, ?_⟩, hL⟩, hR⟩
  · exact vLeB_vmin_left hLmin hRmin
  · exact vLeB_vmin_right hLmin hRmin
  · exact vLeB_vmax_left hLmax hRmax
  · exact vLeB_vmax_right hLmax hRmax

/-- Translating a `node` of two well-behaved trees preserves the local
bounds checks. -/
theorem boundsOkB_node_translate {L R : BVH} {t : V3} (ht : t.finB = true)
    (hLmin : L.min_extents.finB = true) (hLmax : L.max_extents.finB = true)
    (hRmin : R.min_extents.finB = true) (hRmax : R.max_extents.finB = true)
    (hL : boundsOkB (L.translate t) = true) (hR : boundsOkB (R.translate t) = true)
    (hLtm : (L.translate t).min_extents = V3.vadd L.min_extents t)
    (hLtM : (L.translate t).max_extents = V3.vadd L.max_extents t)
    (hRtm : (R.translate t).min_extents = V3.vadd R.min_extents t)
    (hRtM : (R.translate t).max_extents = V3.vadd R.max_extents t) :
    boundsOkB ((BVH.node L R).translate t) = true := by
  have e1 : V3.vadd (V3.vmin L.min_extents R.min_extents) t =
      V3.vmin (L.translate t).min_extents (R.translate t).min_extents := by
    rw [hLtm, hRtm]; exact vmin_vadd hLmin hRmin ht
  have e2 : V3.vadd (V3.vmax L.max_extents R.max_extents) t =
      V3.vmax (L.translate t).max_extents (R.translate t).max_extents := by
    rw [hLtM, hRtM]; exact vmax_vadd hLmax hRmax ht
  show boundsOkB (BVH.Node (V3.vadd (V3.vmin L.min_extents R.min_extents) t)
    (V3.vadd (V3.vmax L.max_extents R.max_extents) t)
    (L.translate t) (R.translate t)) = true
  simp only [boundsOkB, Bool.and_eq_true, decide_eq_true_eq]
  refine ⟨⟨⟨⟨⟨⟨⟨e1, e2⟩, ?_⟩, ?_⟩, ?_⟩, ?_⟩, hL⟩, hR⟩
  · rw [e1, hLtm, hRtm]
    exact vLeB_vmin_left (V3.finB_vadd hLmin ht) (V3.finB_vadd hRmin ht)
  · rw [e1, hLtm, hRtm]
    exact vLeB_vmin_right (V3.finB_vadd hLmin ht) (V3.finB_vadd hRmin ht)
  · rw [e2, hLtM, hRtM]
    exact vLeB_vmax_left (V3.finB_vadd hLmax ht) (V3.finB_vadd hRmax ht)
  · rw [e2, hLtM, hRtM]
    exact vLeB_vmax_right (V3.finB_vadd hLmax ht) (V3.finB_vadd hRmax ht)

/-- Main build induction for the bounds invariant: a tree built from
faces with finite vertices satisfies the invariant, as does its
translate by a finite vector, and (for nonempty inputs) its extents
are finite and commute with translation. -/
theorem build_bounds_aux (t : V3) (ht : t.finB = true) :
    ∀ (fs : List Face) (axis : Nat),
      (∀ f ∈ fs, (f.a.finB && f.b.finB && f.c.finB) = true) →
      boundsOkB (new_helper fs axis) = true ∧
      boundsOkB ((new_helper fs axis).translate t) = true ∧
      (fs ≠ [] →
        (new_helper fs axis).min_extents.finB = true ∧
        (new_helper fs axis).max_extents.finB = true ∧
        ((new_helper fs axis).translate t).min_extents =
          V3.vadd (new_helper fs axis).min_extents t ∧
        ((new_helper fs axis).translate t).max_extents =
          V3.vadd (new_helper fs axis).max_extents t) := by
  intro fs axis
  induction fs, axis using new_helper.induct with
  | case1 axis =>
    intro _
    simp only [new_helper]
    exact ⟨rfl, rfl, fun h => absurd rfl h⟩
  | case2 f axis =>
    intro hf
    have hff := hf f (by simp)
    simp only [new_helper]
    have hext := face_extents_fin hff
    have htr := face_translate_extents hff ht
    exact ⟨rfl, rfl, fun _ => ⟨hext.1, hext.2, htr.1, htr.2⟩⟩
  | case3 f1 f2 rest axis faces fs1 fs2 ih1 ih2 =>
    intro hf
    have hm1 : ∀ f ∈ fs1, (f.a.finB && f.b.finB && f.c.finB) = true := by
      intro f hfm
      exact hf f (List.take_subset _ _ ((sortFaces_perm _ _).mem_iff.mp hfm))
    have hm2 : ∀ f ∈ fs2, (f.a.finB && f.b.finB && f.c.finB) = true := by
      intro f hfm
      exact hf f (List.drop_subset _ _ ((sortFaces_perm _ _).mem_iff.mp hfm))
    have hne1 : fs1 ≠ [] := by
      have h1 : 0 < fs1.length := by
        simp only [fs1, sortFaces, List.length_insertionSort, List.length_take,
          faces, List.length_cons]
        omega
      exact List.ne_nil_of_length_pos h1
    have hne2 : fs2 ≠ [] := by
      have h1 : 0 < fs2.length := by
        simp only [fs2, sortFaces, List.length_insertionSort, List.length_drop,
          faces, List.length_cons]
        omega
      exact List.ne_nil_of_length_pos h1
    obtain ⟨hbL, hbtL, hextL⟩ := ih1 hm1
    obtain ⟨hbR, hbtR, hextR⟩ := ih2 hm2
    obtain ⟨hLmin, hLmax, hLtm, hLtM⟩ := hextL hne1
    obtain ⟨hRmin, hRmax, hRtm, hRtM⟩ := hextR hne2
    simp only [new_helper]
    refine ⟨boundsOkB_node hLmin hLmax hRmin hRmax hbL hbR,
      boundsOkB_node_translate ht hLmin hLmax hRmin hRmax hbtL hbtR
        hLtm hLtM hRtm hRtM, fun _ => ?_⟩
    refine ⟨V3.finB_vmin hLmin hRmin, V3.finB_vmax hLmax hRmax, rfl, rfl⟩

/-- C7: every tree built by `new` from faces with finite vertex
coordinates satisfies, at every Internal node, that its bounds are the
exact component-wise min/max union of its children's extents and bound
both children monotonically, recursively to the leaves; and the same
holds for any translate of such a tree by a finite vector. -/
theorem c7_bounds_invariant (faces : List Face) (t : V3)
    (hfin : allFinB faces = true) (ht : t.finB = true) :
    boundsOkB (BVH.new faces) = true ∧
    boundsOkB ((BVH.new faces).translate t) = true := by
  have h := build_bounds_aux t ht faces 0
    (fun f hfm => List.all_eq_true.mp hfin f hfm)
  exact ⟨h.1, h.2.1⟩

/-- C7 witness at a concrete two-face build and a concrete
translation. -/
theorem c7_witness :
    allFinB [triC4, triC3big] = true ∧
    (⟨FP.fin 1, FP.fin 2, FP.fin 3⟩ : V3).finB = true ∧
    boundsOkB (BVH.new [triC4, triC3big]) = true ∧
    boundsOkB ((BVH.new [triC4, triC3big]).translate
      ⟨FP.fin 1, FP.fin 2, FP.fin 3⟩) = true := by
  have h1 : allFinB [triC4, triC3big] = true := by decide
  have h2 : (⟨FP.fin 1, FP.fin 2, FP.fin 3⟩ : V3).finB = true := rfl
  have h := c7_bounds_invariant [triC4, triC3big] ⟨FP.fin 1, FP.fin 2, FP.fin 3⟩
    h1 h2
  exact ⟨h1, h2, h.1, h.2⟩

/-! ## Heap pop, termination (C10) and panic-freedom (C8) -/

theorem heapPopMin_none_iff {h : Heap} : heapPopMin h = none ↔ h = [] := by
  cases h with
  | nil => simp [heapPopMin]
  | cons e rest =>
    simp only [heapPopMin]
    refine ⟨fun hp => ?_, fun hcon => by simp at hcon⟩
    split at hp
    · simp at hp
    · split at hp <;> simp at hp

theorem heapPopMin_split {h : Heap} {m : BVH × FP} {rest : Heap}
    (hp : heapPopMin h = some (m, rest)) :
    ∃ l1 l2, h = l1 ++ m :: l2 ∧ rest = l1 ++ l2 := by
  induction h generalizing m rest with
  | nil => simp [heapPopMin] at hp
  | cons e tl ih =>
    simp only [heapPopMin] at hp
    split at hp
    · rename_i hr
      simp only [Option.some.injEq, Prod.mk.injEq] at hp
      obtain ⟨rfl, rfl⟩ := hp
      have htl : tl = [] := heapPopMin_none_iff.mp hr
      subst htl
      exact ⟨[], [], rfl, rfl⟩
    · rename_i m0 rest2 hr
      split at hp
      · simp only [Option.some.injEq, Prod.mk.injEq] at hp
        obtain ⟨rfl, rfl⟩ := hp
        exact ⟨[], tl, rfl, rfl⟩
      · simp only [Option.some.injEq, Prod.mk.injEq] at hp
        obtain ⟨rfl, rfl⟩ := hp
        obtain ⟨l1, l2, hh, hr2⟩ := ih hr
        exact ⟨e :: l1, l2, by simp [hh], by simp [hr2]⟩

theorem heapMeasure_append (h1 h2 : Heap) :
    heapMeasure (h1 ++ h2) = heapMeasure h1 + heapMeasure h2 := by
  simp [heapMeasure]

theorem heapMeasure_cons (e : BVH × FP) (h : Heap) :
    heapMeasure (e :: h) = e.1.nodesCount + heapMeasure h := by
  simp [heapMeasure]

theorem heapPopMin_measure {h : Heap} {m : BVH × FP} {rest : Heap}
    (hp : heapPopMin h = some (m, rest)) :
    heapMeasure h = m.1.nodesCount + heapMeasure rest := by
  obtain ⟨l1, l2, rfl, rfl⟩ := heapPopMin_split hp
  simp [heapMeasure_append, heapMeasure_cons]
  omega

theorem heapPopMin_mem {h : Heap} {m : BVH × FP} {rest : Heap}
    (hp : heapPopMin h = some (m, rest)) : m ∈ h := by
  obtain ⟨l1, l2, rfl, _⟩ := heapPopMin_split hp
  simp

theorem heapPopMin_rest_subset {h : Heap} {m : BVH × FP} {rest : Heap}
    (hp : heapPopMin h = some (m, rest)) : ∀ e ∈ rest, e ∈ h := by
  obtain ⟨l1, l2, rfl, rfl⟩ := heapPopMin_split hp
  intro e he
  rcases List.mem_append.mp he with he | he
  · exact List.mem_append.mpr (Or.inl he)
  · exact List.mem_append.mpr (Or.inr (List.mem_cons_of_mem _ he))

theorem collideChild_heap (v : BVH) (ray : Ray) (t s : V3) (st : TState) :
    (collideChild v ray t s st).heap = st.heap ∨
    ∃ c, (collideChild v ray t s st).heap = st.heap ++ [(v, c)] ∧
      v.isNodeB = true := by
  cases v with
  | Empty => exact Or.inl rfl
  | Child f =>
    simp only [collideChild]
    split
    · split_ifs <;> exact Or.inl rfl
    · exact Or.inl rfl
  | Node mn mx l r =>
    simp only [collideChild]
    split_ifs with hc
    · exact Or.inr ⟨_, rfl, rfl⟩
    · exact Or.inl rfl

theorem collideChild_measure (v : BVH) (ray : Ray) (t s : V3) (st : TState) :
    heapMeasure (collideChild v ray t s st).heap ≤
      heapMeasure st.heap + v.nodesCount := by
  rcases collideChild_heap v ray t s st with h | ⟨c, h, _⟩ <;> rw [h]
  · omega
  · rw [heapMeasure_append, heapMeasure_cons]
    simp [heapMeasure]

theorem collideChild_nodes (v : BVH) (ray : Ray) (t s : V3) (st : TState)
    (hst : ∀ e ∈ st.heap, e.1.isNodeB = true) :
    ∀ e ∈ (collideChild v ray t s st).heap, e.1.isNodeB = true := by
  rcases collideChild_heap v ray t s st with h | ⟨c, h, hv⟩ <;> rw [h]
  · exact hst
  · intro e he
    rcases List.mem_append.mp he with he | he
    · exact hst e he
    · simp only [List.mem_singleton] at he
      rw [he]
      exact hv

theorem collideLoop_no_timeout (ray : Ray) (t s : V3) :
    ∀ fuel heap minT res, heapMeasure heap < fuel →
      collideLoop ray t s fuel heap minT res ≠ LoopRes.timeout := by
  intro fuel
  induction fuel with
  | zero => intro heap minT res h; exact absurd h (by omega)
  | succ fuel ih =>
    intro heap minT res hm
    simp only [collideLoop]
    split
    · simp
    · rename_i pr u c rest hp
      split_ifs with hlt
      · simp
      · split
        · rename_i mn mx l r
          apply ih
          have hmeq := heapPopMin_measure hp
          have h1 := collideChild_measure l ray t s ⟨minT, res, rest⟩
          have h2 := collideChild_measure r ray t s
            (collideChild l ray t s ⟨minT, res, rest⟩)
          rw [show (⟨minT, res, rest⟩ : TState).heap = rest from rfl] at h1
          simp only [BVH.nodesCount] at hmeq
          omega
        · simp

theorem collideLoop_no_panic (ray : Ray) (t s : V3) :
    ∀ fuel heap minT res, (∀ e ∈ heap, e.1.isNodeB = true) →
      collideLoop ray t s fuel heap minT res ≠ LoopRes.panicked := by
  intro fuel
  induction fuel with
  | zero => intro heap minT res _; simp [collideLoop]
  | succ fuel ih =>
    intro heap minT res hn
    simp only [collideLoop]
    split
    · simp
    · rename_i pr u c rest hp
      split_ifs with hlt
      · simp
      · split
        · rename_i mn mx l r
          apply ih
          exact collideChild_nodes r ray t s _
            (collideChild_nodes l ray t s ⟨minT, res, rest⟩
              (fun e he => hn e (heapPopMin_rest_subset hp e he)))
        · rename_i hnotnode
          have hu := hn (u, c) (heapPopMin_mem hp)
          cases u with
          | Node mn mx l r => exact absurd rfl (hnotnode mn mx l r)
          | Child f => exact absurd hu (by simp [BVH.isNodeB])
          | Empty => exact absurd hu (by simp [BVH.isNodeB])

/-- C10: for every tree and every ray the priority-queue loop of
`collide` terminates: with fuel one more than the total Internal-node
measure of the seeded queue (which strictly decreases every
iteration), the loop never exhausts its fuel. -/
theorem c10_traversal_terminates (u : BVH) (ray : Ray) :
    collideR u ray ≠ LoopRes.timeout := by
  cases u with
  | Node mn mx l r =>
    simp only [collideR]
    exact collideLoop_no_timeout _ _ _ _ _ _ _ (Nat.lt_succ_self _)
  | Child f => simp [collideR]
  | Empty => simp [collideR]

/-- C8: the traversal aborts with the `"Non node child put into
queue"` panic exactly when a popped entry's payload is not an Internal
node (first conjunct), and for every tree and every ray this branch is
unreachable, because the seeding and the pushes only ever enqueue
Node-variant subtrees (second conjunct). -/
theorem c8_panic_unreachable :
    (∀ (ray : Ray) (t s : V3) (fuel : Nat) (heap : Heap) (minT : FP)
       (res : Option Collision) (u : BVH) (c : FP) (rest : Heap),
      heapPopMin heap = some ((u, c), rest) → FP.lt minT c = false →
      u.isNodeB = false →
      collideLoop ray t s (fuel + 1) heap minT res = LoopRes.panicked) ∧
    (∀ (u : BVH) (ray : Ray), collideR u ray ≠ LoopRes.panicked) := by
  constructor
  · intro ray t s fuel heap minT res u c rest hp hlt hu
    simp only [collideLoop, hp]
    rw [if_neg (by simp [hlt])]
    cases u with
    | Node mn mx l r => simp [BVH.isNodeB] at hu
    | Child f => rfl
    | Empty => rfl
  · intro u ray
    cases u with
    | Node mn mx l r =>
      simp only [collideR]
      apply collideLoop_no_panic
      intro e he
      split at he
      · simp only [List.mem_singleton] at he
        rw [he]
        rfl
      · simp at he
    | Child f => simp [collideR]
    | Empty => simp [collideR]

/-- C8 witness: a hand-built queue holding a non-Node payload makes
the loop abort, and the traversal of a concrete tree never aborts. -/
theorem c8_witness :
    collideLoop rayC6 ⟨FP.inf, FP.inf, FP.inf⟩ ⟨FP.zero, FP.zero, FP.zero⟩ 1
      [(BVH.Empty, FP.fin 0)] (FP.fin 1) none = LoopRes.panicked ∧
    collideR BVH.Empty rayC6 ≠ LoopRes.panicked := by
  refine ⟨c8_panic_unreachable.1 rayC6 ⟨FP.inf, FP.inf, FP.inf⟩
      ⟨FP.zero, FP.zero, FP.zero⟩ 0 [(BVH.Empty, FP.fin 0)] (FP.fin 1) none
      BVH.Empty (FP.fin 0) [] rfl ?_ rfl,
    c8_panic_unreachable.2 BVH.Empty rayC6⟩
  norm_num [FP.lt]

/-! ## Small order lemmas for the traversal proof -/

theorem vLeB_trans {a b c : V3} (h1 : vLeB a b = true) (h2 : vLeB b c = true) :
    vLeB a c = true := by
  simp only [vLeB, Bool.and_eq_true] at h1 h2 ⊢
  exact ⟨⟨FP.le_trans h1.1.1 h2.1.1, FP.le_trans h1.1.2 h2.1.2⟩,
    FP.le_trans h1.2 h2.2⟩

theorem FP.le_antisymm {a b : FP} (h1 : le a b = true) (h2 : le b a = true) :
    a = b := by
  cases a <;> cases b <;> simp_all [FP.le] <;> linarith

theorem FP.beq_inf_false_of_le_fin {a : FP} {q : ℚ}
    (h : le a (fin q) = true) : beq a inf = false := by
  cases a <;> simp_all [FP.le, FP.beq]

theorem FP.le_zero_false_of_fin_le {a : FP} {q : ℚ} (hq : 0 < q)
    (h : le (fin q) a = true) : le a zero = false := by
  cases a <;> simp_all [FP.le, FP.zero] <;> linarith

theorem FP.ne_of_min_cases {o a b : FP} (ha : o ≠ a) (hb : o ≠ b) :
    o ≠ FP.min a b := by
  rcases FP.min_cases a b with h | h <;> rw [h] <;> assumption

theorem FP.ne_of_max_cases {o a b : FP} (ha : o ≠ a) (hb : o ≠ b) :
    o ≠ FP.max a b := by
  rcases FP.max_cases a b with h | h <;> rw [h] <;> assumption

theorem FP.ne_of_beq_false {a b : FP} (ha : a ≠ nan) (h : beq a b = false) :
    a ≠ b := by
  intro hcon
  subst hcon
  cases a <;> simp_all [FP.beq]

theorem heapPopMin_min {h : Heap} {m : BVH × FP} {rest : Heap}
    (hn : ∀ e ∈ h, e.2 ≠ FP.nan) (hp : heapPopMin h = some (m, rest)) :
    ∀ e ∈ rest, FP.le m.2 e.2 = true := by
  induction h generalizing m rest with
  | nil => simp [heapPopMin] at hp
  | cons e tl ih =>
    simp only [heapPopMin] at hp
    split at hp
    · rename_i hr
      simp only [Option.some.injEq, Prod.mk.injEq] at hp
      obtain ⟨rfl, rfl⟩ := hp
      simp
    · rename_i m0 rest2 hr
      have htl : ∀ x ∈ tl, x.2 ≠ FP.nan :=
        fun x hx => hn x (List.mem_cons_of_mem _ hx)
      have hmem0 : m0 ∈ tl := heapPopMin_mem hr
      have hihtl := ih htl hr
      split at hp
      · rename_i hc
        simp only [Option.some.injEq, Prod.mk.injEq] at hp
        obtain ⟨rfl, rfl⟩ := hp
        have hlt0 : FP.lt m0.2 e.2 = false := by
          simp only [costLe] at hc
          simpa using hc
        have hle0 : FP.le e.2 m0.2 = true :=
          FP.le_of_not_lt (hn m0 (List.mem_cons_of_mem _ hmem0))
            (hn e (List.mem_cons_self _ _)) hlt0
        intro x hx
        obtain ⟨l1, l2, hh, hr2⟩ := heapPopMin_split hr
        rw [hh] at hx
        rcases List.mem_append.mp hx with hx | hx
        · exact FP.le_trans hle0
            (hihtl x (by rw [hr2]; exact List.mem_append.mpr (Or.inl hx)))
        · rcases List.mem_cons.mp hx with rfl | hx
          · exact hle0
          · exact FP.le_trans hle0
              (hihtl x (by rw [hr2]; exact List.mem_append.mpr (Or.inr hx)))
      · rename_i hc
        simp only [Option.some.injEq, Prod.mk.injEq] at hp
        obtain ⟨rfl, rfl⟩ := hp
        intro x hx
        rcases List.mem_cons.mp hx with rfl | hx
        · have hlt0 : FP.lt m0.2 x.2 = true := by
            simp only [costLe] at hc
            simpa using hc
          exact FP.le_of_lt hlt0
        · exact hihtl x hx

/-! ## Box-test completeness -/

/-- A successful face intersection's contact point is the ray origin
displaced by the collision distance along the direction. -/
theorem hits_contact_eq {f : Face} {ray : Ray} {c : Collision}
    (h : f.hits ray = some c) :
    c.contact_point = V3.vadd ray.origin (V3.smul ray.direction c.distance) := by
  simp only [Face.hits] at h
  split_ifs at h <;>
    first
      | (simp only [Option.some.injEq] at h; rw [← h])
      | simp at h

/-- Per-axis completeness of the slab clip: if the ray parameter `q`
places the (finite) hit coordinate inside the axis interval, and the
axis is not degenerate, the sorted slab interval contains `q` and is
NaN-free. -/
theorem slab_complete {d s b1 b2 q : ℚ} (hq : 0 < q)
    (hp1 : b1 ≤ s + q * d) (hp2 : s + q * d ≤ b2)
    (hax : d = 0 → s ≠ b1 ∧ s ≠ b2) :
    FP.le (collideSlab (FP.div FP.one (FP.fin d)) (FP.fin s)
      (FP.fin b1) (FP.fin b2)).1 (FP.fin q) = true ∧
    FP.le (FP.fin q) (collideSlab (FP.div FP.one (FP.fin d)) (FP.fin s)
      (FP.fin b1) (FP.fin b2)).2 = true := by
  by_cases hd : d = 0
  · subst hd
    obtain ⟨hs1, hs2⟩ := hax rfl
    have hb1s : b1 < s := by
      rcases lt_or_eq_of_le (by linarith : b1 ≤ s) with h | h
      · exact h
      · exact absurd h.symm hs1
    have hb2s : s < b2 := by
      rcases lt_or_eq_of_le (by linarith : s ≤ b2) with h | h
      · exact h
      · exact absurd h hs2
    have htinf : FP.div FP.one (FP.fin 0) = FP.inf := by
      simp [FP.div, FP.one]
    rw [htinf]
    have hmin : FP.mul (FP.sub (FP.fin b1) (FP.fin s)) FP.inf = FP.ninf := by
      simp only [FP.sub, FP.neg, FP.add, FP.mul]
      rw [if_neg (show ¬ b1 + -s > 0 by linarith),
        if_pos (show b1 + -s < 0 by linarith)]
    have hmax : FP.mul (FP.sub (FP.fin b2) (FP.fin s)) FP.inf = FP.inf := by
      simp only [FP.sub, FP.neg, FP.add, FP.mul]
      rw [if_pos (show b2 + -s > 0 by linarith)]
    simp [collideSlab, hmin, hmax, FP.lt, FP.le]
  · have htd : FP.div FP.one (FP.fin d) = FP.fin (1 / d) := by
      simp [FP.div, FP.one, hd]
    rw [htd]
    have hmul1 : FP.mul (FP.sub (FP.fin b1) (FP.fin s)) (FP.fin (1 / d)) =
        FP.fin ((b1 - s) * (1 / d)) := by
      simp [FP.sub, FP.neg, FP.add, FP.mul, sub_eq_add_neg]
    have hmul2 : FP.mul (FP.sub (FP.fin b2) (FP.fin s)) (FP.fin (1 / d)) =
        FP.fin ((b2 - s) * (1 / d)) := by
      simp [FP.sub, FP.neg, FP.add, FP.mul, sub_eq_add_neg]
    have hdd : d * (1 / d) = 1 := by
      field_simp
    rcases lt_or_gt_of_ne hd with hneg | hpos
    · -- d < 0 : multiplying flips; b1 bound gives upper, b2 gives lower
      have hid : 1 / d < 0 := by
        exact div_neg_of_pos_of_neg one_pos hneg
      have hu : q ≤ (b1 - s) * (1 / d) := by
        have := mul_le_mul_of_nonpos_right
          (show b1 - s ≤ q * d by linarith) (le_of_lt hid)
        calc q = q * (d * (1 / d)) := by rw [hdd]; ring
        _ = q * d * (1 / d) := by ring
        _ ≤ (b1 - s) * (1 / d) := this
      have hl : (b2 - s) * (1 / d) ≤ q := by
        have := mul_le_mul_of_nonpos_right
          (show q * d ≤ b2 - s by linarith) (le_of_lt hid)
        calc (b2 - s) * (1 / d) ≤ q * d * (1 / d) := this
        _ = q * (d * (1 / d)) := by ring
        _ = q := by rw [hdd]; ring
      simp only [collideSlab, hmul1, hmul2]
      split_ifs with hcmp
      · simp only [FP.lt, decide_eq_true_eq] at hcmp
        constructor <;> simp only [FP.le, decide_eq_true_eq] <;> linarith
      · simp only [FP.lt, decide_eq_true_eq] at hcmp
        have hcmp2 := not_lt.mp hcmp
        constructor <;> simp only [FP.le, decide_eq_true_eq] <;> linarith
    · -- d > 0
      have hid : 0 < 1 / d := by positivity
      have hl : (b1 - s) * (1 / d) ≤ q := by
        have := mul_le_mul_of_nonneg_right
          (show b1 - s ≤ q * d by linarith) (le_of_lt hid)
        calc (b1 - s) * (1 / d) ≤ q * d * (1 / d) := this
        _ = q * (d * (1 / d)) := by ring
        _ = q := by rw [hdd]; ring
      have hu : q ≤ (b2 - s) * (1 / d) := by
        have := mul_le_mul_of_nonneg_right
          (show q * d ≤ b2 - s by linarith) (le_of_lt hid)
        calc q = q * (d * (1 / d)) := by rw [hdd]; ring
        _ = q * d * (1 / d) := by ring
        _ ≤ (b2 - s) * (1 / d) := this
      simp only [collideSlab, hmul1, hmul2]
      split_ifs with hcmp
      · simp only [FP.lt, decide_eq_true_eq] at hcmp
        constructor <;> simp only [FP.le, decide_eq_true_eq] <;> linarith
      · simp only [FP.lt, decide_eq_true_eq] at hcmp
        have hcmp2 := not_lt.mp hcmp
        constructor <;> simp only [FP.le, decide_eq_true_eq] <;> linarith

/-- Internal restatement of the box-test equivalence, for use by the
traversal proofs. -/
theorem collideBox_acc (t s bmin bmax : V3) :
    collideBox t s bmin bmax = collideBoxSpec t s bmin bmax := by
  unfold collideBox collideBoxSpec
  exact boxCascade_eq _ _ _ _ _ _

/-- For a finite-component ray the precomputed traversal data are the
per-component reciprocals and the origin itself. -/
theorem computeTS_good {ray : Ray} {ox oy oz dx dy dz : ℚ}
    (ho : ray.origin = ⟨FP.fin ox, FP.fin oy, FP.fin oz⟩)
    (hd : ray.direction = ⟨FP.fin dx, FP.fin dy, FP.fin dz⟩) :
    (computeTS ray).1 = ⟨FP.div FP.one (FP.fin dx), FP.div FP.one (FP.fin dy),
      FP.div FP.one (FP.fin dz)⟩ ∧
    (computeTS ray).2 = ⟨FP.fin ox, FP.fin oy, FP.fin oz⟩ := by
  rw [computeTS, ho, hd]
  constructor <;>
    simp [V3.dot, V3.axisX, V3.axisY, V3.axisZ, FP.one, FP.zero, FP.mul,
      FP.add]

/-- Completeness of the box test: if the ray reaches a point of the
box at a positive finite parameter `q`, and the box is finite and
non-degenerate for the ray, then `collide_box` reports a hit whose
entry cost is at most `q`. -/
theorem box_complete {ray : Ray} {bmin bmax : V3} {q : ℚ} {p : V3}
    (hray : GoodRayB ray = true) (hq : 0 < q)
    (hp : p = V3.vadd ray.origin (V3.smul ray.direction (FP.fin q)))
    (h1 : vLeB bmin p = true) (h2 : vLeB p bmax = true)
    (hb1 : bmin.finB = true) (hb2 : bmax.finB = true)
    (hax : boxAxisOK ray bmin bmax) :
    (collideBox (computeTS ray).1 (computeTS ray).2 bmin bmax).1 = true ∧
    FP.le (collideBox (computeTS ray).1 (computeTS ray).2 bmin bmax).2
      (FP.fin q) = true := by
  simp only [GoodRayB, Bool.and_eq_true] at hray
  obtain ⟨ox, oy, oz, ho⟩ := V3.finB_iff.mp hray.1
  obtain ⟨dx, dy, dz, hd⟩ := V3.finB_iff.mp hray.2
  obtain ⟨b1x, b1y, b1z, hbm⟩ := V3.finB_iff.mp hb1
  obtain ⟨b2x, b2y, b2z, hbM⟩ := V3.finB_iff.mp hb2
  obtain ⟨hts1, hts2⟩ := computeTS_good ho hd
  have hpv : p = ⟨FP.fin (ox + q * dx), FP.fin (oy + q * dy),
      FP.fin (oz + q * dz)⟩ := by
    rw [hp, ho, hd]
    simp [V3.vadd, V3.smul, FP.mul, FP.add]
  rw [hpv, hbm] at h1
  rw [hpv, hbM] at h2
  simp only [vLeB, Bool.and_eq_true, FP.le_fin, decide_eq_true_eq] at h1 h2
  have haxx : dx = 0 → ox ≠ b1x ∧ ox ≠ b2x := by
    intro h0
    have := hax.1 (by rw [hd, h0]; rfl)
    rw [ho, hbm, hbM] at this
    exact ⟨fun hc => this.1 (by rw [hc]), fun hc => this.2 (by rw [hc])⟩
  have haxy : dy = 0 → oy ≠ b1y ∧ oy ≠ b2y := by
    intro h0
    have := hax.2.1 (by rw [hd, h0]; rfl)
    rw [ho, hbm, hbM] at this
    exact ⟨fun hc => this.1 (by rw [hc]), fun hc => this.2 (by rw [hc])⟩
  have haxz : dz = 0 → oz ≠ b1z ∧ oz ≠ b2z := by
    intro h0
    have := hax.2.2 (by rw [hd, h0]; rfl)
    rw [ho, hbm, hbM] at this
    exact ⟨fun hc => this.1 (by rw [hc]), fun hc => this.2 (by rw [hc])⟩
  have hsx := slab_complete hq (show b1x ≤ ox + q * dx from h1.1.1)
    (show ox + q * dx ≤ b2x from h2.1.1) haxx
  have hsy := slab_complete hq (show b1y ≤ oy + q * dy from h1.1.2)
    (show oy + q * dy ≤ b2y from h2.1.2) haxy
  have hsz := slab_complete hq (show b1z ≤ oz + q * dz from h1.2)
    (show oz + q * dz ≤ b2z from h2.2) haxz
  rw [collideBox_acc, hts1, hts2, hbm, hbM]
  simp only [collideBoxSpec]
  have hentry : FP.le (FP.max (FP.max (FP.max FP.ninf
      (collideSlab (FP.div FP.one (FP.fin dx)) (FP.fin ox) (FP.fin b1x) (FP.fin b2x)).1)
      (collideSlab (FP.div FP.one (FP.fin dy)) (FP.fin oy) (FP.fin b1y) (FP.fin b2y)).1)
      (collideSlab (FP.div FP.one (FP.fin dz)) (FP.fin oz) (FP.fin b1z) (FP.fin b2z)).1)
      (FP.fin q) = true := by
    refine FP.max_le_of (FP.max_le_of (FP.max_le_of rfl hsx.1) hsy.1) hsz.1
  have hexit : FP.le (FP.fin q) (FP.min (FP.min (FP.min FP.inf
      (collideSlab (FP.div FP.one (FP.fin dx)) (FP.fin ox) (FP.fin b1x) (FP.fin b2x)).2)
      (collideSlab (FP.div FP.one (FP.fin dy)) (FP.fin oy) (FP.fin b1y) (FP.fin b2y)).2)
      (collideSlab (FP.div FP.one (FP.fin dz)) (FP.fin oz) (FP.fin b1z) (FP.fin b2z)).2) = true := by
    refine FP.le_min_of (FP.le_min_of (FP.le_min_of rfl hsx.2) hsy.2) hsz.2
  rw [if_neg (by
    rw [FP.beq_inf_false_of_le_fin hentry,
      FP.not_lt_of_le (FP.le_trans hentry hexit)]
    simp)]
  rw [if_neg (by
    rw [FP.le_zero_false_of_fin_le hq hexit]
    simp)]
  by_cases h0 : FP.le FP.zero (FP.max (FP.max (FP.max FP.ninf
      (collideSlab (FP.div FP.one (FP.fin dx)) (FP.fin ox) (FP.fin b1x) (FP.fin b2x)).1)
      (collideSlab (FP.div FP.one (FP.fin dy)) (FP.fin oy) (FP.fin b1y) (FP.fin b2y)).1)
      (collideSlab (FP.div FP.one (FP.fin dz)) (FP.fin oz) (FP.fin b1z) (FP.fin b2z)).1) = true
  · rw [if_pos h0]
    exact ⟨rfl, hentry⟩
  · rw [if_neg h0]
    refine ⟨rfl, ?_⟩
    simp only [FP.zero, FP.le_fin, decide_eq_true_eq]
    exact le_of_lt hq

/-! ## Built trees are well-formed for non-degenerate rays -/

theorem vLeB_refl {a : V3} (ha : a.finB = true) : vLeB a a = true := by
  obtain ⟨px, py, pz, rfl⟩ := V3.finB_iff.mp ha
  simp [vLeB, FP.le_fin]

theorem GoodFaceB_fins {ray : Ray} {f : Face} (h : GoodFaceB ray f = true) :
    (f.a.finB && f.b.finB && f.c.finB) = true := by
  simp only [GoodFaceB, Bool.and_eq_true] at h
  simp only [Bool.and_eq_true]
  exact ⟨⟨h.1.1.1.1.1.1, h.1.1.1.1.1.2⟩, h.1.1.1.1.2⟩

theorem GoodFaceB_ax {ray : Ray} {f : Face} (h : GoodFaceB ray f = true) :
    axOKB ray.direction.x ray.origin.x f.a.x f.b.x f.c.x = true ∧
    axOKB ray.direction.y ray.origin.y f.a.y f.b.y f.c.y = true ∧
    axOKB ray.direction.z ray.origin.z f.a.z f.b.z f.c.z = true := by
  simp only [GoodFaceB, Bool.and_eq_true] at h
  exact ⟨h.1.1.2, h.1.2, h.2⟩

theorem GoodFaceB_hit {ray : Ray} {f : Face} {c : Collision}
    (h : GoodFaceB ray f = true) (hc : f.hits ray = some c) :
    finPos c.distance = true ∧ vLeB f.min_extents c.contact_point = true ∧
    vLeB c.contact_point f.max_extents = true := by
  simp only [GoodFaceB, Bool.and_eq_true] at h
  have h2 := h.1.1.1.2
  rw [hc] at h2
  simp only [Bool.and_eq_true] at h2
  exact ⟨h2.1.1, h2.1.2, h2.2⟩

/-- A well-formed tree's extents bound the extents of every leaf face
(given finite leaf vertices). -/
theorem ext_bound {ray : Ray} {u : BVH} (hok : TreeOK ray u)
    (hfins : ∀ f ∈ u.leavesList, (f.a.finB && f.b.finB && f.c.finB) = true) :
    ∀ f ∈ u.leavesList, vLeB u.min_extents f.min_extents = true ∧
      vLeB f.max_extents u.max_extents = true := by
  cases u with
  | Node bmin bmax l r =>
    intro f hf
    exact hok.2.2.1 f hf
  | Child f0 =>
    intro f hf
    simp only [BVH.leavesList, List.mem_singleton] at hf
    subst hf
    have hext := face_extents_fin (hfins f (by simp [BVH.leavesList]))
    exact ⟨vLeB_refl hext.1, vLeB_refl hext.2⟩
  | Empty => intro f hf; simp [BVH.leavesList] at hf

/-- On a ray-parallel axis, the origin projection differs from the
minimum extent coordinate of a face with good axis data. -/
theorem face_axisAvoid {ray : Ray} {f : Face} (hray : GoodRayB ray = true)
    (hf : GoodFaceB ray f = true) : axisAvoid ray (BVH.Child f) := by
  simp only [GoodRayB, Bool.and_eq_true] at hray
  obtain ⟨ox, oy, oz, ho⟩ := V3.finB_iff.mp hray.1
  obtain ⟨hax, hay, haz⟩ := GoodFaceB_ax hf
  have hfins := GoodFaceB_fins hf
  simp only [Bool.and_eq_true] at hfins
  obtain ⟨ax1, ay1, az1, hfa⟩ := V3.finB_iff.mp hfins.1.1
  obtain ⟨bx1, by1, bz1, hfb⟩ := V3.finB_iff.mp hfins.1.2
  obtain ⟨cx1, cy1, cz1, hfc⟩ := V3.finB_iff.mp hfins.2
  have key : ∀ (d o va vb vc : FP), axOKB d o va vb vc = true →
      o ≠ FP.nan → d = FP.zero →
      o ≠ FP.min (FP.min va vb) vc ∧ o ≠ FP.max (FP.max va vb) vc := by
    intro d o va vb vc hok hnan hd
    subst hd
    have hz : FP.beq FP.zero FP.zero = true := by simp [FP.beq, FP.zero]
    simp only [axOKB, hz, Bool.not_true, Bool.false_or, Bool.and_eq_true,
      Bool.not_eq_true] at hok
    have h1 : o ≠ va := FP.ne_of_beq_false hnan (by
      have := hok.1.1; rwa [Bool.not_eq_true'] at this)
    have h2 : o ≠ vb := FP.ne_of_beq_false hnan (by
      have := hok.1.2; rwa [Bool.not_eq_true'] at this)
    have h3 : o ≠ vc := FP.ne_of_beq_false hnan (by
      have := hok.2; rwa [Bool.not_eq_true'] at this)
    exact ⟨FP.ne_of_min_cases (FP.ne_of_min_cases h1 h2) h3,
      FP.ne_of_max_cases (FP.ne_of_max_cases h1 h2) h3⟩
  refine ⟨fun hdx => ?_, fun hdy => ?_, fun hdz => ?_⟩
  · exact key _ _ _ _ _ hax (by rw [ho]; simp) hdx
  · exact key _ _ _ _ _ hay (by rw [ho]; simp) hdy
  · exact key _ _ _ _ _ haz (by rw [ho]; simp) hdz

/-- Built trees are well-formed for a good ray over good faces, and
nonempty builds avoid the ray's degenerate axes. -/
theorem build_TreeOK (ray : Ray) (hray : GoodRayB ray = true) :
    ∀ fs axis, (∀ f ∈ fs, GoodFaceB ray f = true) →
      TreeOK ray (new_helper fs axis) ∧
      (fs ≠ [] → axisAvoid ray (new_helper fs axis)) := by
  intro fs axis
  induction fs, axis using new_helper.induct with
  | case1 axis =>
    intro _
    simp only [new_helper]
    exact ⟨trivial, fun h => absurd rfl h⟩
  | case2 f axis =>
    intro hf
    simp only [new_helper]
    exact ⟨trivial, fun _ => face_axisAvoid hray (hf f (by simp))⟩
  | case3 f1 f2 rest axis faces fs1 fs2 ih1 ih2 =>
    intro hf
    have hm1 : ∀ f ∈ fs1, GoodFaceB ray f = true := by
      intro f hfm
      exact hf f (List.take_subset _ _ ((sortFaces_perm _ _).mem_iff.mp hfm))
    have hm2 : ∀ f ∈ fs2, GoodFaceB ray f = true := by
      intro f hfm
      exact hf f (List.drop_subset _ _ ((sortFaces_perm _ _).mem_iff.mp hfm))
    have hne1 : fs1 ≠ [] := by
      have h1 : 0 < fs1.length := by
        simp only [fs1, sortFaces, List.length_insertionSort, List.length_take,
          faces, List.length_cons]
        omega
      exact List.ne_nil_of_length_pos h1
    have hne2 : fs2 ≠ [] := by
      have h1 : 0 < fs2.length := by
        simp only [fs2, sortFaces, List.length_insertionSort, List.length_drop,
          faces, List.length_cons]
        omega
      exact List.ne_nil_of_length_pos h1
    obtain ⟨hokL, havL⟩ := ih1 hm1
    obtain ⟨hokR, havR⟩ := ih2 hm2
    have havL2 := havL hne1
    have havR2 := havR hne2
    have hfins1 : ∀ f ∈ fs1, (f.a.finB && f.b.finB && f.c.finB) = true :=
      fun f hfm => GoodFaceB_fins (hm1 f hfm)
    have hfins2 : ∀ f ∈ fs2, (f.a.finB && f.b.finB && f.c.finB) = true :=
      fun f hfm => GoodFaceB_fins (hm2 f hfm)
    have hb1 := build_bounds_aux ⟨FP.fin 0, FP.fin 0, FP.fin 0⟩ rfl fs1
      ((axis + 1) % 3) hfins1
    have hb2 := build_bounds_aux ⟨FP.fin 0, FP.fin 0, FP.fin 0⟩ rfl fs2
      ((axis + 1) % 3) hfins2
    obtain ⟨hLmin, hLmax, _, _⟩ := hb1.2.2 hne1
    obtain ⟨hRmin, hRmax, _, _⟩ := hb2.2.2 hne2
    have hlv1 : ∀ f ∈ (new_helper fs1 ((axis + 1) % 3)).leavesList,
        (f.a.finB && f.b.finB && f.c.finB) = true := by
      intro f hfm
      exact hfins1 f ((new_helper_leaves_perm _ _).mem_iff.mp hfm)
    have hlv2 : ∀ f ∈ (new_helper fs2 ((axis + 1) % 3)).leavesList,
        (f.a.finB && f.b.finB && f.c.finB) = true := by
      intro f hfm
      exact hfins2 f ((new_helper_leaves_perm _ _).mem_iff.mp hfm)
    simp only [new_helper]
    constructor
    · simp only [BVH.node, TreeOK]
      refine ⟨V3.finB_vmin hLmin hRmin, V3.finB_vmax hLmax hRmax, ?_, ?_, hokL, hokR⟩
      · intro f hfm
        simp only [BVH.leavesList] at hfm
        rcases List.mem_append.mp hfm with hfm | hfm
        · have hb := ext_bound hokL hlv1 f hfm
          exact ⟨vLeB_trans (vLeB_vmin_left hLmin hRmin) hb.1,
            vLeB_trans hb.2 (vLeB_vmax_left hLmax hRmax)⟩
        · have hb := ext_bound hokR hlv2 f hfm
          exact ⟨vLeB_trans (vLeB_vmin_right hLmin hRmin) hb.1,
            vLeB_trans hb.2 (vLeB_vmax_right hLmax hRmax)⟩
      · refine ⟨fun hdx => ?_, fun hdy => ?_, fun hdz => ?_⟩
        · exact ⟨FP.ne_of_min_cases (havL2.1 hdx).1 (havR2.1 hdx).1,
            FP.ne_of_max_cases (havL2.1 hdx).2 (havR2.1 hdx).2⟩
        · exact ⟨FP.ne_of_min_cases (havL2.2.1 hdy).1 (havR2.2.1 hdy).1,
            FP.ne_of_max_cases (havL2.2.1 hdy).2 (havR2.2.1 hdy).2⟩
        · exact ⟨FP.ne_of_min_cases (havL2.2.2 hdz).1 (havR2.2.2 hdz).1,
            FP.ne_of_max_cases (havL2.2.2 hdz).2 (havR2.2.2 hdz).2⟩
    · intro _
      refine ⟨fun hdx => ?_, fun hdy => ?_, fun hdz => ?_⟩
      · exact ⟨FP.ne_of_min_cases (havL2.1 hdx).1 (havR2.1 hdx).1,
          FP.ne_of_max_cases (havL2.1 hdx).2 (havR2.1 hdx).2⟩
      · exact ⟨FP.ne_of_min_cases (havL2.2.1 hdy).1 (havR2.2.1 hdy).1,
          FP.ne_of_max_cases (havL2.2.1 hdy).2 (havR2.2.1 hdy).2⟩
      · exact ⟨FP.ne_of_min_cases (havL2.2.2 hdz).1 (havR2.2.2 hdz).1,
          FP.ne_of_max_cases (havL2.2.2 hdz).2 (havR2.2.2 hdz).2⟩

/-! ## Characterization of the brute-force scan -/

theorem finPos_fin {a : FP} (h : finPos a = true) :
    ∃ q, a = FP.fin q ∧ 0 < q := by
  cases a <;> simp_all [finPos]

theorem GoodFaceB_dist_fin {ray : Ray} {f : Face} {c : Collision}
    (h : GoodFaceB ray f = true) (hc : f.hits ray = some c) :
    ∃ q, c.distance = FP.fin q ∧ 0 < q :=
  finPos_fin (GoodFaceB_hit h hc).1

theorem scanStep_hits_none {ray : Ray} {acc : Option Collision} {f : Face}
    (h : f.hits ray = none) : scanStep ray acc f = acc := by
  simp [scanStep, h]

theorem scanStep_acc_none {ray : Ray} {f : Face} {cf : Collision}
    (h : f.hits ray = some cf) : scanStep ray none f = some cf := by
  simp [scanStep, h]

theorem scanStep_both {ray : Ray} {f : Face} {cf c2 : Collision}
    (h : f.hits ray = some cf) :
    scanStep ray (some c2) f =
      if FP.lt cf.distance c2.distance = true then some cf else some c2 := by
  simp [scanStep, h]

theorem scanStep_none_iff {ray : Ray} {acc : Option Collision} {f : Face} :
    scanStep ray acc f = none ↔ acc = none ∧ f.hits ray = none := by
  cases hh : f.hits ray with
  | none => rw [scanStep_hits_none hh]; simp
  | some c =>
    cases acc with
    | none => rw [scanStep_acc_none hh]; simp
    | some c2 => rw [scanStep_both hh]; split_ifs <;> simp

theorem listHits_fold (ray : Ray) :
    ∀ (faces : List Face) (acc : Option Collision),
      (∀ f ∈ faces, GoodFaceB ray f = true) →
      (∀ c0, acc = some c0 → ∃ q, c0.distance = FP.fin q) →
      (faces.foldl (scanStep ray) acc = none ↔
        acc = none ∧ ∀ f ∈ faces, Face.hits f ray = none) ∧
      (∀ c, faces.foldl (scanStep ray) acc = some c →
        (acc = some c ∨ ∃ f ∈ faces, Face.hits f ray = some c) ∧
        (∀ c0, acc = some c0 → FP.le c.distance c0.distance = true) ∧
        (∀ f ∈ faces, ∀ c2, Face.hits f ray = some c2 →
          FP.le c.distance c2.distance = true)) := by
  intro faces
  induction faces with
  | nil =>
    intro acc hg hfin
    constructor
    · simp
    · intro c hr
      simp only [List.foldl_nil] at hr
      refine ⟨Or.inl hr, fun c0 hc0 => ?_, by simp⟩
      rw [hr] at hc0
      injection hc0 with hc0
      subst hc0
      obtain ⟨q, hq⟩ := hfin c hr
      rw [hq]
      simp [FP.le_fin]
  | cons f fs ih =>
    intro acc hg hfin
    have hgf : GoodFaceB ray f = true := hg f (by simp)
    have hgfs : ∀ x ∈ fs, GoodFaceB ray x = true :=
      fun x hx => hg x (List.mem_cons_of_mem _ hx)
    have hacc2 : ∀ c0, scanStep ray acc f = some c0 →
        ∃ q, c0.distance = FP.fin q := by
      intro c0 hc0
      cases hh : f.hits ray with
      | none =>
        rw [scanStep_hits_none hh] at hc0
        exact hfin c0 hc0
      | some cf =>
        cases acc with
        | none =>
          rw [scanStep_acc_none hh] at hc0
          injection hc0 with hc0
          subst hc0
          obtain ⟨q, hq, _⟩ := GoodFaceB_dist_fin hgf hh
          exact ⟨q, hq⟩
        | some c2 =>
          rw [scanStep_both hh] at hc0
          split_ifs at hc0 <;> injection hc0 with hc0 <;> rw [← hc0]
          · obtain ⟨q, hq, _⟩ := GoodFaceB_dist_fin hgf hh
            exact ⟨q, hq⟩
          · exact hfin c2 rfl
    obtain ⟨ihn, ihs⟩ := ih (scanStep ray acc f) hgfs hacc2
    constructor
    · simp only [List.foldl_cons]
      rw [ihn, scanStep_none_iff]
      constructor
      · rintro ⟨⟨h1, h2⟩, h3⟩
        exact ⟨h1, fun x hx => by
          rcases List.mem_cons.mp hx with rfl | hx
          · exact h2
          · exact h3 x hx⟩
      · rintro ⟨h1, h2⟩
        exact ⟨⟨h1, h2 f (by simp)⟩, fun x hx => h2 x (List.mem_cons_of_mem _ hx)⟩
    · intro c hr
      simp only [List.foldl_cons] at hr
      obtain ⟨hmem, hvsacc, hvsfs⟩ := ihs c hr
      refine ⟨?_, ?_, ?_⟩
      · rcases hmem with hmem | ⟨x, hx, hxh⟩
        · cases hh : f.hits ray with
          | none =>
            rw [scanStep_hits_none hh] at hmem
            exact Or.inl hmem
          | some cf =>
            cases acc with
            | none =>
              rw [scanStep_acc_none hh] at hmem
              injection hmem with hmem
              exact Or.inr ⟨f, by simp, by rw [hh, hmem]⟩
            | some c2 =>
              rw [scanStep_both hh] at hmem
              split_ifs at hmem
              · injection hmem with hmem
                exact Or.inr ⟨f, by simp, by rw [hh, hmem]⟩
              · exact Or.inl hmem
        · exact Or.inr ⟨x, List.mem_cons_of_mem _ hx, hxh⟩
      · intro c0 hc0
        subst hc0
        cases hh : f.hits ray with
        | none =>
          rw [scanStep_hits_none hh] at hvsacc
          exact hvsacc c0 rfl
        | some cf =>
          rw [scanStep_both hh] at hvsacc
          split_ifs at hvsacc with hlt
          · have h1 := hvsacc cf rfl
            exact FP.le_trans h1 (FP.le_of_lt hlt)
          · exact hvsacc c0 rfl
      · intro x hx c2 hc2
        rcases List.mem_cons.mp hx with rfl | hx
        · cases acc with
          | none =>
            rw [scanStep_acc_none hc2] at hvsacc
            exact hvsacc c2 rfl
          | some ca =>
            rw [scanStep_both hc2] at hvsacc
            split_ifs at hvsacc with hlt
            · exact hvsacc c2 rfl
            · have h1 := hvsacc ca rfl
              obtain ⟨qa, hqa⟩ := hfin ca rfl
              obtain ⟨q2, hq2, _⟩ := GoodFaceB_dist_fin (hg x hx) hc2
              have h2 : FP.le ca.distance c2.distance = true := by
                rw [hqa, hq2]
                rw [hqa, hq2] at hlt
                simp only [FP.lt, decide_eq_true_eq] at hlt
                simp only [FP.le_fin, decide_eq_true_eq]
                exact le_of_not_lt hlt
              exact FP.le_trans h1 h2
        · exact hvsfs x hx c2 hc2

/-! ## Stepping the traversal state -/

theorem collideChild_empty (ray : Ray) (t s : V3) (st : TState) :
    collideChild BVH.Empty ray t s st = st := rfl

theorem collideChild_child_none {ray : Ray} {f0 : Face} (t s : V3) (st : TState)
    (hh : f0.hits ray = none) :
    collideChild (BVH.Child f0) ray t s st = st := by
  simp [collideChild, hh]

theorem collideChild_child_some {ray : Ray} {f0 : Face} {c0 : Collision}
    (t s : V3) (st : TState) (hh : f0.hits ray = some c0) :
    collideChild (BVH.Child f0) ray t s st =
      if FP.lt c0.distance st.minT = true then
        { st with minT := c0.distance, res := some c0 }
      else st := by
  simp [collideChild, hh]

theorem collideChild_node (ray : Ray) (t s : V3) (st : TState)
    (bmin bmax : V3) (l r : BVH) :
    collideChild (BVH.Node bmin bmax l r) ray t s st =
      if ((collideBox t s bmin bmax).1 &&
          FP.lt (collideBox t s bmin bmax).2 st.minT) = true then
        { st with heap := st.heap ++
            [(BVH.Node bmin bmax l r, (collideBox t s bmin bmax).2)] }
      else st := by
  simp [collideChild]

/-- A successful box test's entry cost is a finite non-negative
scalar. -/
theorem collideBox_true_cost {t s bmin bmax : V3}
    (h : (collideBox t s bmin bmax).1 = true) :
    ∃ q, (collideBox t s bmin bmax).2 = FP.fin q ∧ 0 ≤ q := by
  rw [collideBox_acc] at h ⊢
  simp only [collideBoxSpec] at h ⊢
  split_ifs at h ⊢ with h1 h2 h3
  · simp only [Bool.or_eq_true, not_or] at h1
    have hbe : FP.beq (FP.max (FP.max (FP.max FP.ninf
        (collideSlab t.x s.x bmin.x bmax.x).1)
        (collideSlab t.y s.y bmin.y bmax.y).1)
        (collideSlab t.z s.z bmin.z bmax.z).1) FP.inf = false :=
      Bool.eq_false_iff.mpr h1.1
    have hne : FP.max (FP.max (FP.max FP.ninf
        (collideSlab t.x s.x bmin.x bmax.x).1)
        (collideSlab t.y s.y bmin.y bmax.y).1)
        (collideSlab t.z s.z bmin.z bmax.z).1 ≠ FP.nan :=
      FP.max_ne_nan (FP.max_ne_nan (FP.max_ne_nan (by simp) _) _) _
    cases he : FP.max (FP.max (FP.max FP.ninf
        (collideSlab t.x s.x bmin.x bmax.x).1)
        (collideSlab t.y s.y bmin.y bmax.y).1)
        (collideSlab t.z s.z bmin.z bmax.z).1 with
    | nan => exact absurd he hne
    | inf => rw [he] at hbe; simp [FP.beq] at hbe
    | ninf => rw [he] at h3; simp [FP.le, FP.zero] at h3
    | fin q =>
      rw [he] at h3
      simp only [FP.zero, FP.le_fin, decide_eq_true_eq] at h3
      exact ⟨q, rfl, h3⟩
  · exact ⟨0, rfl, le_refl 0⟩

/-- Every collision of a leaf face beneath a well-formed Internal node
is found by that node's box test, at an entry cost at most the
collision distance. -/
theorem node_leaf_bound {ray : Ray} {bmin bmax : V3} {l r : BVH}
    (hray : GoodRayB ray = true)
    (hok : TreeOK ray (BVH.Node bmin bmax l r))
    (hgood : ∀ f ∈ (BVH.Node bmin bmax l r).leavesList, GoodFaceB ray f = true) :
    ∀ f ∈ (BVH.Node bmin bmax l r).leavesList, ∀ c, Face.hits f ray = some c →
      (collideBox (computeTS ray).1 (computeTS ray).2 bmin bmax).1 = true ∧
      FP.le (collideBox (computeTS ray).1 (computeTS ray).2 bmin bmax).2
        c.distance = true := by
  intro f hf c hc
  have hgf := hgood f hf
  obtain ⟨q, hdq, hq⟩ := GoodFaceB_dist_fin hgf hc
  obtain ⟨_, hcmin, hcmax⟩ := GoodFaceB_hit hgf hc
  have hencl := hok.2.2.1 f hf
  have h1 : vLeB bmin c.contact_point = true := vLeB_trans hencl.1 hcmin
  have h2 : vLeB c.contact_point bmax = true := vLeB_trans hcmax hencl.2
  have hp : c.contact_point =
      V3.vadd ray.origin (V3.smul ray.direction (FP.fin q)) := by
    rw [← hdq]
    exact hits_contact_eq hc
  have hbc := box_complete hray hq hp h1 h2 hok.1 hok.2.1 hok.2.2.2.1
  rw [hdq]
  exact hbc

/-- Resolving one child preserves the queue, state and coverage
invariants of the traversal. -/
theorem collideChild_inv (L : List Face) (ray : Ray)
    (hray : GoodRayB ray = true)
    (hL : ∀ f ∈ L, GoodFaceB ray f = true)
    (v : BVH) (hv : TreeOK ray v)
    (hvleaf : ∀ f ∈ v.leavesList, f ∈ L)
    (st : TState) (P : List BVH)
    (hheap : heapInv L ray st.heap)
    (hstate : stateInv L ray st.minT st.res)
    (hcover : coverInv L ray st.heap st.minT (v :: P)) :
    heapInv L ray (collideChild v ray (computeTS ray).1 (computeTS ray).2 st).heap ∧
    stateInv L ray (collideChild v ray (computeTS ray).1 (computeTS ray).2 st).minT
      (collideChild v ray (computeTS ray).1 (computeTS ray).2 st).res ∧
    coverInv L ray (collideChild v ray (computeTS ray).1 (computeTS ray).2 st).heap
      (collideChild v ray (computeTS ray).1 (computeTS ray).2 st).minT P := by
  cases v with
  | Empty =>
    rw [collideChild_empty]
    refine ⟨hheap, hstate, ?_⟩
    intro f hf c hc hlt
    rcases hcover f hf c hc hlt with h | ⟨w, hw, hfw⟩
    · exact Or.inl h
    · rcases List.mem_cons.mp hw with rfl | hw
      · simp [BVH.leavesList] at hfw
      · exact Or.inr ⟨w, hw, hfw⟩
  | Child f0 =>
    cases hh : Face.hits f0 ray with
    | none =>
      rw [collideChild_child_none _ _ st hh]
      refine ⟨hheap, hstate, ?_⟩
      intro f hf c hc hlt
      rcases hcover f hf c hc hlt with h | ⟨w, hw, hfw⟩
      · exact Or.inl h
      · rcases List.mem_cons.mp hw with rfl | hw
        · simp only [BVH.leavesList, List.mem_singleton] at hfw
          rw [hfw, hh] at hc
          exact absurd hc (by simp)
        · exact Or.inr ⟨w, hw, hfw⟩
    | some c0 =>
      rw [collideChild_child_some _ _ st hh]
      split_ifs with hlt0
      · refine ⟨hheap, ?_, ?_⟩
        · refine ⟨fun hcon => by simp at hcon, ?_, ?_⟩
          · intro c hcres
            have hc0 : some c0 = some c := hcres
            injection hc0 with hc0
            subst hc0
            exact ⟨rfl, f0, hvleaf f0 (by simp [BVH.leavesList]), hh⟩
          · right
            obtain ⟨q, hq1, hq2⟩ :=
              GoodFaceB_dist_fin (hL f0 (hvleaf f0 (by simp [BVH.leavesList]))) hh
            exact ⟨q, hq1, hq2⟩
        · intro f hf c hc hlt
          have hlt2 : FP.lt c.distance st.minT = true := FP.lt_trans hlt hlt0
          rcases hcover f hf c hc hlt2 with h | ⟨w, hw, hfw⟩
          · exact Or.inl h
          · rcases List.mem_cons.mp hw with rfl | hw
            · simp only [BVH.leavesList, List.mem_singleton] at hfw
              rw [hfw, hh] at hc
              injection hc with hc
              rw [← hc] at hlt
              rw [FP.lt_irrefl] at hlt
              exact absurd hlt (by simp)
            · exact Or.inr ⟨w, hw, hfw⟩
      · refine ⟨hheap, hstate, ?_⟩
        intro f hf c hc hlt
        rcases hcover f hf c hc hlt with h | ⟨w, hw, hfw⟩
        · exact Or.inl h
        · rcases List.mem_cons.mp hw with rfl | hw
          · simp only [BVH.leavesList, List.mem_singleton] at hfw
            rw [hfw, hh] at hc
            injection hc with hc
            rw [← hc] at hlt
            exact absurd hlt (by simp [hlt0])
          · exact Or.inr ⟨w, hw, hfw⟩
  | Node bmin bmax l r =>
    have hbound := node_leaf_bound hray hv (fun f hf => hL f (hvleaf f hf))
    rw [collideChild_node]
    split_ifs with hpush
    · simp only [Bool.and_eq_true] at hpush
      refine ⟨?_, hstate, ?_⟩
      · intro e he
        rcases List.mem_append.mp he with he | he
        · exact hheap e he
        · simp only [List.mem_singleton] at he
          subst he
          refine ⟨rfl, hv, hvleaf, collideBox_true_cost hpush.1, ?_⟩
          intro f hf c hc
          exact (hbound f hf c hc).2
      · intro f hf c hc hlt
        rcases hcover f hf c hc hlt with ⟨e, he, hfe⟩ | ⟨w, hw, hfw⟩
        · exact Or.inl ⟨e, List.mem_append.mpr (Or.inl he), hfe⟩
        · rcases List.mem_cons.mp hw with rfl | hw
          · exact Or.inl ⟨(BVH.Node bmin bmax l r,
              (collideBox (computeTS ray).1 (computeTS ray).2 bmin bmax).2),
              List.mem_append.mpr (Or.inr (by simp)), hfw⟩
          · exact Or.inr ⟨w, hw, hfw⟩
    · refine ⟨hheap, hstate, ?_⟩
      intro f hf c hc hlt
      rcases hcover f hf c hc hlt with h | ⟨w, hw, hfw⟩
      · exact Or.inl h
      · rcases List.mem_cons.mp hw with rfl | hw
        · have hb := hbound f hfw c hc
          have hlt2 : FP.lt
              (collideBox (computeTS ray).1 (computeTS ray).2 bmin bmax).2
              st.minT = true :=
            FP.lt_of_le_of_lt hb.2 hlt
          exact absurd (by rw [hb.1, hlt2]; rfl :
            ((collideBox (computeTS ray).1 (computeTS ray).2 bmin bmax).1 &&
              FP.lt (collideBox (computeTS ray).1 (computeTS ray).2 bmin bmax).2
                st.minT) = true) hpush
        · exact Or.inr ⟨w, hw, hfw⟩

/-- If no scene face can improve on the recorded best distance, the
recorded state is already a correct traversal result. -/
theorem resultGood_of_no_improve (L : List Face) (ray : Ray)
    (hL : ∀ f ∈ L, GoodFaceB ray f = true)
    (minT : FP) (res : Option Collision)
    (hstate : stateInv L ray minT res)
    (key : ∀ f ∈ L, ∀ c2, Face.hits f ray = some c2 →
      FP.lt c2.distance minT = false) :
    ResultGood L ray res := by
  constructor
  · intro hres f hf
    cases hc : Face.hits f ray with
    | none => rfl
    | some c =>
      obtain ⟨q, hdq, _⟩ := GoodFaceB_dist_fin (hL f hf) hc
      have hminT := hstate.1 hres
      have hk := key f hf c hc
      rw [hdq, hminT] at hk
      simp [FP.lt] at hk
  · intro c hres
    obtain ⟨hcd, hex⟩ := hstate.2.1 c hres
    refine ⟨hex, ?_⟩
    intro f hf c2 hc2
    obtain ⟨q2, hdq2, _⟩ := GoodFaceB_dist_fin (hL f hf) hc2
    have hk := key f hf c2 hc2
    have hmn : minT ≠ FP.nan := by
      rcases hstate.2.2 with h | ⟨q, hq, _⟩
      · rw [h]; simp
      · rw [hq]; simp
    have h2n : c2.distance ≠ FP.nan := by rw [hdq2]; simp
    rw [hcd]
    exact FP.le_of_not_lt h2n hmn hk

/-- The traversal loop, run with sufficient fuel from a state
satisfying the three invariants, returns normally with a correct
result. -/
theorem collideLoop_good (L : List Face) (ray : Ray)
    (hray : GoodRayB ray = true)
    (hL : ∀ f ∈ L, GoodFaceB ray f = true) :
    ∀ fuel heap minT res,
      heapMeasure heap < fuel →
      heapInv L ray heap →
      stateInv L ray minT res →
      coverInv L ray heap minT [] →
      ∃ r, collideLoop ray (computeTS ray).1 (computeTS ray).2 fuel heap minT res
          = LoopRes.done r ∧ ResultGood L ray r := by
  intro fuel
  induction fuel with
  | zero => intro heap minT res hm _ _ _; exact absurd hm (by omega)
  | succ fuel ih =>
    intro heap minT res hm hheap hstate hcover
    simp only [collideLoop]
    cases hp : heapPopMin heap with
    | none =>
      have hemp : heap = [] := heapPopMin_none_iff.mp hp
      refine ⟨res, rfl, resultGood_of_no_improve L ray hL minT res hstate ?_⟩
      intro f hf c2 hc2
      by_contra hk
      rw [Bool.not_eq_false] at hk
      rcases hcover f hf c2 hc2 hk with ⟨e, he, _⟩ | ⟨v, hv, _⟩
      · rw [hemp] at he; simp at he
      · simp at hv
    | some p =>
      obtain ⟨⟨u, c⟩, rest⟩ := p
      have hmem := heapPopMin_mem hp
      obtain ⟨hnode, hok, hleaf, ⟨qc, hqc, hqc0⟩, hcost⟩ := hheap _ hmem
      have hqc2 : c = FP.fin qc := hqc
      have hnn : ∀ e ∈ heap, e.2 ≠ FP.nan := by
        intro e he
        obtain ⟨_, _, _, ⟨qe, hqe, _⟩, _⟩ := hheap e he
        rw [hqe]; simp
      have hrestmin := heapPopMin_min hnn hp
      have hmemle : ∀ e ∈ heap, FP.le c e.2 = true := by
        intro e he
        obtain ⟨l1, l2, hsp, hre⟩ := heapPopMin_split hp
        rw [hsp] at he
        rcases List.mem_append.mp he with he | he
        · exact hrestmin e (by rw [hre]; exact List.mem_append.mpr (Or.inl he))
        · rcases List.mem_cons.mp he with rfl | he
          · exact FP.le_rfl (by rw [hqc2]; simp)
          · exact hrestmin e (by rw [hre]; exact List.mem_append.mpr (Or.inr he))
      dsimp only
      split_ifs with hearly
      · refine ⟨res, rfl, resultGood_of_no_improve L ray hL minT res hstate ?_⟩
        intro f hf c2 hc2
        by_contra hk
        rw [Bool.not_eq_false] at hk
        rcases hcover f hf c2 hc2 hk with ⟨e, he, hfe⟩ | ⟨v, hv, _⟩
        · obtain ⟨_, _, _, _, hec⟩ := hheap e he
          have h1 : FP.lt minT e.2 = true :=
            FP.lt_of_lt_of_le hearly (hmemle e he)
          have h2 : FP.lt minT c2.distance = true :=
            FP.lt_of_lt_of_le h1 (hec f hfe c2 hc2)
          have h3 := FP.lt_trans h2 hk
          rw [FP.lt_irrefl] at h3
          exact absurd h3 (by simp)
        · simp at hv
      · cases u with
        | Empty => simp [BVH.isNodeB] at hnode
        | Child f0 => simp [BVH.isNodeB] at hnode
        | Node bmin bmax l r =>
          have hrheap : heapInv L ray rest := by
            intro e he
            exact hheap e (heapPopMin_rest_subset hp e he)
          have hrcover : coverInv L ray rest minT
              (BVH.Node bmin bmax l r :: [r]) := by
            intro f hf c2 hc2 hk
            rcases hcover f hf c2 hc2 hk with ⟨e, he, hfe⟩ | ⟨v, hv, _⟩
            · obtain ⟨l1, l2, hsp, hre⟩ := heapPopMin_split hp
              rw [hsp] at he
              rcases List.mem_append.mp he with he | he
              · refine Or.inl ⟨e, ?_, hfe⟩
                rw [hre]
                exact List.mem_append.mpr (Or.inl he)
              · rcases List.mem_cons.mp he with rfl | he
                · exact Or.inr ⟨BVH.Node bmin bmax l r, by simp, hfe⟩
                · refine Or.inl ⟨e, ?_, hfe⟩
                  rw [hre]
                  exact List.mem_append.mpr (Or.inr he)
            · simp at hv
          have hstL : TState := ⟨minT, res, rest⟩
          have hlok : TreeOK ray l := hok.2.2.2.2.1
          have hrok : TreeOK ray r := hok.2.2.2.2.2
          have hlleaf : ∀ f ∈ l.leavesList, f ∈ L := by
            intro f hf
            exact hleaf f (by simp [BVH.leavesList]; exact Or.inl hf)
          have hrleaf : ∀ f ∈ r.leavesList, f ∈ L := by
            intro f hf
            exact hleaf f (by simp [BVH.leavesList]; exact Or.inr hf)
          have hcov0 : coverInv L ray
              ((⟨minT, res, rest⟩ : TState).heap)
              ((⟨minT, res, rest⟩ : TState).minT)
              (l :: [r]) := by
            intro f hf c2 hc2 hk
            rcases hrcover f hf c2 hc2 hk with h | ⟨v, hv, hfv⟩
            · exact Or.inl h
            · rcases List.mem_cons.mp hv with rfl | hv
              · simp only [BVH.leavesList, List.mem_append] at hfv
                rcases hfv with hfv | hfv
                · exact Or.inr ⟨l, by simp, hfv⟩
                · exact Or.inr ⟨r, by simp, hfv⟩
              · simp only [List.mem_singleton] at hv
                exact Or.inr ⟨v, by rw [hv]; simp, hfv⟩
          have hinv1 := collideChild_inv L ray hray hL l hlok hlleaf
            ⟨minT, res, rest⟩ [r] hrheap hstate hcov0
          have hinv2 := collideChild_inv L ray hray hL r hrok hrleaf
            (collideChild l ray (computeTS ray).1 (computeTS ray).2
              ⟨minT, res, rest⟩) [] hinv1.1 hinv1.2.1 hinv1.2.2
          have hms : heapMeasure (collideChild r ray (computeTS ray).1
              (computeTS ray).2 (collideChild l ray (computeTS ray).1
                (computeTS ray).2 ⟨minT, res, rest⟩)).heap < fuel := by
            have h1 := collideChild_measure r ray (computeTS ray).1
              (computeTS ray).2 (collideChild l ray (computeTS ray).1
                (computeTS ray).2 ⟨minT, res, rest⟩)
            have h2 := collideChild_measure l ray (computeTS ray).1
              (computeTS ray).2 ⟨minT, res, rest⟩
            rw [show (⟨minT, res, rest⟩ : TState).heap = rest from rfl] at h2
            have h3 := heapPopMin_measure hp
            have h4 : ((BVH.Node bmin bmax l r, c)).1.nodesCount =
                1 + l.nodesCount + r.nodesCount := rfl
            rw [h4] at h3
            omega
          exact ih _ _ _ hms hinv2.1 hinv2.2.1 hinv2.2.2

/-- `collide` on a well-formed Internal root returns normally with a
correct nearest-hit result for any scene list containing exactly the
tree's leaves. -/
theorem collideR_good (L : List Face) (ray : Ray)
    (hray : GoodRayB ray = true)
    (hL : ∀ f ∈ L, GoodFaceB ray f = true)
    (bmin bmax : V3) (l r : BVH)
    (hok : TreeOK ray (BVH.Node bmin bmax l r))
    (hleaf : ∀ f ∈ (BVH.Node bmin bmax l r).leavesList, f ∈ L)
    (hleafR : ∀ f ∈ L, f ∈ (BVH.Node bmin bmax l r).leavesList) :
    ∃ res, collideR (BVH.Node bmin bmax l r) ray = LoopRes.done res ∧
      ResultGood L ray res := by
  have hbound := node_leaf_bound hray hok (fun f hf => hL f (hleaf f hf))
  cases hb : (collideBox (computeTS ray).1 (computeTS ray).2 bmin bmax).1 with
  | false =>
    refine ⟨none, ?_, ?_, ?_⟩
    · simp only [collideR, hb]
      simp [collideLoop, heapPopMin, heapMeasure]
    · intro _ f hf
      cases hc : Face.hits f ray with
      | none => rfl
      | some c =>
        have := (hbound f (hleafR f hf) c hc).1
        rw [hb] at this
        exact absurd this (by simp)
    · intro c hc
      exact absurd hc (by simp)
  | true =>
    have hheap : heapInv L ray
        [(BVH.Node bmin bmax l r,
          (collideBox (computeTS ray).1 (computeTS ray).2 bmin bmax).2)] := by
      intro e he
      simp only [List.mem_singleton] at he
      subst he
      refine ⟨rfl, hok, hleaf, collideBox_true_cost hb, ?_⟩
      intro f hf c hc
      exact (hbound f hf c hc).2
    have hstate : stateInv L ray FP.inf none :=
      ⟨fun _ => rfl, fun c hc => absurd hc (by simp), Or.inl rfl⟩
    have hcover : coverInv L ray
        [(BVH.Node bmin bmax l r,
          (collideBox (computeTS ray).1 (computeTS ray).2 bmin bmax).2)]
        FP.inf [] := by
      intro f hf c hc _
      exact Or.inl ⟨(BVH.Node bmin bmax l r,
        (collideBox (computeTS ray).1 (computeTS ray).2 bmin bmax).2),
        by simp, hleafR f hf⟩
    obtain ⟨res, hdone, hgood⟩ := collideLoop_good L ray hray hL
      (heapMeasure [(BVH.Node bmin bmax l r,
        (collideBox (computeTS ray).1 (computeTS ray).2 bmin bmax).2)] + 1)
      [(BVH.Node bmin bmax l r,
        (collideBox (computeTS ray).1 (computeTS ray).2 bmin bmax).2)]
      FP.inf none (by omega) hheap hstate hcover
    refine ⟨res, ?_, hgood⟩
    simp only [collideR, hb]
    simp only [if_true]
    exact hdone

/-- The tree query on a tree built from a good scene returns a correct
nearest-hit result for that scene. -/
theorem bvhHits_resultGood (faces : List Face) (ray : Ray)
    (hray : GoodRayB ray = true)
    (hfaces : ∀ f ∈ faces, GoodFaceB ray f = true) :
    ResultGood faces ray (BVH.hits (BVH.new faces) ray) := by
  cases faces with
  | nil =>
    refine ⟨fun _ f hf => absurd hf (by simp), ?_⟩
    intro c hc
    exact absurd hc (by simp [BVH.hits, BVH.new, new_helper])
  | cons f1 tl =>
    cases tl with
    | nil =>
      have hsh : BVH.hits (BVH.new [f1]) ray = Face.hits f1 ray := by
        simp [BVH.hits, BVH.new, new_helper]
      rw [hsh]
      constructor
      · intro hres f0 hf0
        simp only [List.mem_singleton] at hf0
        rw [hf0]
        exact hres
      · intro c hc
        refine ⟨⟨f1, by simp, hc⟩, ?_⟩
        intro f0 hf0 c2 hc2
        simp only [List.mem_singleton] at hf0
        rw [hf0] at hc2
        rw [hc2] at hc
        injection hc with hc
        obtain ⟨q, hdq, _⟩ :=
          GoodFaceB_dist_fin (hfaces f1 (by simp)) hc2
        rw [hc] at hdq
        rw [hc, hdq, FP.le_fin]
        simp
    | cons f2 rest =>
      have hok := (build_TreeOK ray hray (f1 :: f2 :: rest) 0 hfaces).1
      have hperm := new_helper_leaves_perm (f1 :: f2 :: rest) 0
      have hsh : ∃ bmin bmax l r, new_helper (f1 :: f2 :: rest) 0 =
          BVH.Node bmin bmax l r := by
        rw [new_helper]
        exact ⟨_, _, _, _, rfl⟩
      obtain ⟨bmin, bmax, l, r, hsh⟩ := hsh
      rw [hsh] at hok hperm
      obtain ⟨res, hdone, hgood⟩ := collideR_good (f1 :: f2 :: rest) ray
        hray hfaces bmin bmax l r hok
        (fun f hf => hperm.mem_iff.mp hf)
        (fun f hf => hperm.mem_iff.mpr hf)
      have hv : BVH.hits (BVH.new (f1 :: f2 :: rest)) ray = res := by
        rw [BVH.new, hsh]
        simp only [BVH.hits]
        rw [hdone]
      rw [hv]
      exact hgood

/-- The loop returns immediately on an empty queue. -/
theorem collideLoop_nil (ray : Ray) (t s : V3) (fuel : Nat) (minT : FP)
    (res : Option Collision) :
    collideLoop ray t s (fuel + 1) [] minT res = LoopRes.done res := by
  simp [collideLoop, heapPopMin]

/-- C1 (amended): for every ray with finite components and every scene
list whose faces are non-degenerate for that ray (finite vertices; any
hit has a finite, strictly positive distance with contact inside the
face's extent box; vertex coordinates on ray-parallel axes avoid the
origin projection), the BVH query `hits` on the tree built by `new`
agrees with the brute-force linear scan: it returns `None` exactly when
the scan does, and any pair of answers is a genuine nearest hit of the
same scene face list with equal distances.  (Without those
non-degeneracy conditions the claim is false: see the counterexample,
where an exactly plane-parallel ray makes the scan return a spurious
infinite-distance collision that the tree query rejects.) -/
theorem c1_bvh_matches_scan (faces : List Face) (ray : Ray)
    (hray : GoodRayB ray = true)
    (hfaces : ∀ f ∈ faces, GoodFaceB ray f = true) :
    (BVH.hits (BVH.new faces) ray = none ↔ listHits faces ray = none) ∧
    ∀ c c2, BVH.hits (BVH.new faces) ray = some c →
      listHits faces ray = some c2 →
      (∃ f ∈ faces, Face.hits f ray = some c) ∧ c.distance = c2.distance := by
  have hB := bvhHits_resultGood faces ray hray hfaces
  have hS := listHits_fold ray faces none hfaces
    (fun c0 hc0 => absurd hc0 (by simp))
  constructor
  · constructor
    · intro hb
      rw [listHits]
      exact hS.1.mpr ⟨rfl, hB.1 hb⟩
    · intro hs
      rw [listHits] at hs
      have hall := (hS.1.mp hs).2
      cases hbv : BVH.hits (BVH.new faces) ray with
      | none => rfl
      | some c =>
        obtain ⟨⟨f, hf, hfc⟩, _⟩ := hB.2 c hbv
        rw [hall f hf] at hfc
        exact absurd hfc (by simp)
  · intro c c2 hb hs
    obtain ⟨hex, hminB⟩ := hB.2 c hb
    rw [listHits] at hs
    obtain ⟨hex2, _, hminS⟩ := hS.2 c2 hs
    rcases hex2 with h | ⟨f2, hf2, hf2c⟩
    · exact absurd h (by simp)
    obtain ⟨f, hf, hfc⟩ := hex
    exact ⟨⟨f, hf, hfc⟩,
      FP.le_antisymm (hminB f2 hf2 c2 hf2c) (hminS f hf c hfc)⟩

/-- C1 counterexample to the literal claim: for the two-triangle scene
`[triC4, triC4]` (both in the plane `z = 0`) and the exactly
plane-parallel ray `rayC5`, the tree query returns `None` while the
brute-force scan returns a (spurious, infinite-distance) collision, so
the two sides are not equal. -/
theorem c1_counterexample :
    BVH.hits (BVH.new [triC4, triC4]) rayC5 = none ∧
    (listHits [triC4, triC4] rayC5).isSome = true := by
  constructor
  · rw [new_pair triC4 triC4]
    norm_num [BVH.node, BVH.leaf, BVH.hits, collideR, BVH.min_extents,
      BVH.max_extents, Face.min_extents, Face.max_extents, triC4, rayC5,
      computeTS, V3.axisX, V3.axisY, V3.axisZ, V3.dot, V3.vmin, V3.vmax,
      collideBox, collideSlab, FP.min, FP.max, FP.mul, FP.add, FP.sub,
      FP.neg, FP.div, FP.lt, FP.le, FP.beq, FP.zero, FP.one,
      heapMeasure, collideLoop, heapPopMin]
  · norm_num [listHits, scanStep, Face.hits, Face.epsilon, Face.normal_at,
      triC4, rayC5, V3.dot, V3.cross, V3.vadd, V3.vsub, V3.smul,
      FP.mul, FP.add, FP.sub, FP.neg, FP.div, FP.lt, FP.le, FP.zero, FP.one]

/-- C1 witness: the non-degeneracy hypotheses hold for the concrete
two-triangle scene `[tW1, tW2]` and the ray `rayW` from the origin
along `+z`, and the amended equivalence follows for it. -/
theorem c1_witness :
    GoodRayB rayW = true ∧ (∀ f ∈ [tW1, tW2], GoodFaceB rayW f = true) ∧
    ((BVH.hits (BVH.new [tW1, tW2]) rayW = none ↔
        listHits [tW1, tW2] rayW = none) ∧
      ∀ c c2, BVH.hits (BVH.new [tW1, tW2]) rayW = some c →
        listHits [tW1, tW2] rayW = some c2 →
        (∃ f ∈ [tW1, tW2], Face.hits f rayW = some c) ∧
          c.distance = c2.distance) := by
  have h1 : GoodRayB rayW = true := rfl
  have h2 : ∀ f ∈ [tW1, tW2], GoodFaceB rayW f = true := by
    intro f hf
    simp only [List.mem_cons, List.mem_singleton] at hf
    rcases hf with rfl | rfl | h
    · norm_num [GoodFaceB, Face.hits, Face.epsilon, Face.normal_at,
        Face.min_extents, Face.max_extents, finPos, vLeB, axOKB,
        tW1, rayW, V3.dot, V3.cross, V3.vadd, V3.vsub, V3.smul,
        V3.vmin, V3.vmax, V3.finB, FP.isFin, FP.min, FP.max, FP.mul,
        FP.add, FP.sub, FP.neg, FP.div, FP.lt, FP.le, FP.beq, FP.zero,
        FP.one]
    · norm_num [GoodFaceB, Face.hits, Face.epsilon, Face.normal_at,
        Face.min_extents, Face.max_extents, finPos, vLeB, axOKB,
        tW2, rayW, V3.dot, V3.cross, V3.vadd, V3.vsub, V3.smul,
        V3.vmin, V3.vmax, V3.finB, FP.isFin, FP.min, FP.max, FP.mul,
        FP.add, FP.sub, FP.neg, FP.div, FP.lt, FP.le, FP.beq, FP.zero,
        FP.one]
    · exact absurd h (by simp)
  exact ⟨h1, h2, c1_bvh_matches_scan [tW1, tW2] rayW h1 h2⟩

end Vitrum
